import Mathlib

/-!
Shallow embedding of the minix workflow subsystem
(`src/core/scheduler/workflow.py`, `src/core/scheduler/task/workflow_tasks.py`,
`src/core/scheduler/workflow_tasks.py`) together with the parts of the
specification's linear-plan compiler that are not present under `src/`
(those definitions carry a `Modelled from the spec:` doc comment).

Python dictionaries are modelled as insertion-ordered association lists,
Python sets of node ids as canonical duplicate-free lists (CPython's set
iteration order is unspecified; the model fixes insertion order, and no
claim depends on it), exceptions as `Except`, and
the mutable `Workflow` object as explicit state passing.  Recursions that
Python runs unboundedly (and that diverge on cyclic graphs) take a fuel
argument; fuel exhaustion is a distinguished error that is proved
unreachable on validated inputs.
-/

namespace Minix

/-- Opaque runtime values (task arguments, task results, contexts). -/
inductive Value where
  | str : String → Value
  | int : Int → Value
  | list : List Value → Value
  | dict : List (String × Value) → Value
deriving Repr

/-- A Python `dict` keyed by strings, as an insertion-ordered association list. -/
abbrev Dict (α : Type) := List (String × α)

/-- The execution context: `dict` from node id to that node's result. -/
abbrev Ctx := Dict Value

/-- Keys of a dict, in insertion order (`d.keys()`). -/
def dictKeys (d : Dict α) : List String := d.map Prod.fst

/-- `d.get(k)` / `k in d`: first binding wins (a real dict has unique keys). -/
def dictGet? (d : Dict α) (k : String) : Option α := d.lookup k

/-- Python `d[k] = v`: replace in place when `k` is present (the key keeps its
original position), append otherwise. -/
def dictSet (d : Dict α) (k : String) (v : α) : Dict α :=
  match d with
  | [] => [(k, v)]
  | (k', v') :: rest => if k' = k then (k, v) :: rest else (k', v') :: dictSet rest k v

/-- Insert into a lexicographically sorted list of strings, keeping the new
element after equal ones (stability). -/
def insertStr (x : String) : List String → List String
  | [] => [x]
  | y :: ys => if x ≤ y ∧ x ≠ y then x :: y :: ys else y :: insertStr x ys

/-- `sorted(keys)` — lexicographic string sort as Python's `sorted`
(stable insertion sort). -/
def sortedStrings (l : List String) : List String :=
  l.foldr insertStr []

/-- Python `set.add` on the canonical (duplicate-free, first-added-first)
list representation of a `set[str]`; CPython's iteration order of a `set` is
unspecified, and the model fixes insertion order. -/
def setInsert (x : String) (s : List String) : List String :=
  if x ∈ s then s else s ++ [x]

/-- Python `set |=` on the canonical representation. -/
def setUnion (s t : List String) : List String :=
  t.foldl (fun acc x => setInsert x acc) s

/-- Python `set &` on the canonical representation. -/
def setInter (s t : List String) : List String :=
  s.filter (fun x => x ∈ t)

/-- Errors raised by the step tasks at execution time. -/
inductive StepError where
  /-- `KeyError(f"Node '{node_id}' cannot run: missing dependency results …")` -/
  | missingDependencyResult (node_id : String) (missing : List String)
      (available : List String)
  /-- `KeyError(f"Task '{task_name}' is not registered …")` -/
  | unknownTask (task_name : String)
  /-- A plain `KeyError` from `context[key]`. -/
  | keyError (key : String)
  /-- Modelled from the spec: the substrate receives a plan whose step shapes
  do not match the `[InitContext, ExecuteNode…, Extract*]` pipeline layout. -/
  | malformedPlan
deriving DecidableEq, Repr

/-- `context[k]`: value on success, `KeyError` otherwise. -/
def ctxGet (ctx : Ctx) (k : String) : Except StepError Value :=
  match dictGet? ctx k with
  | some v => .ok v
  | none => .error (.keyError k)

/-- A registered task, as called by `ExecuteNodeTask.run`:
`t(*call_args, **task_kwargs)`. -/
abbrev TaskFn := List Value → Dict Value → Value

/-- `self.app.tasks`: the substrate registry, name to callable. -/
abbrev Registry := String → Option TaskFn

/-- `InitContextTask.run`: returns a fresh empty context. -/
def InitContextTask.run : Ctx := []

/-- `ExecuteNodeTask.run` from `src/core/scheduler/task/workflow_tasks.py`.
`registry` stands for `self.app.tasks`; `Option` parameters mirror the
Python defaults of `None` coalesced to `{}` / `[]` at entry. -/
def ExecuteNodeTask.run (registry : Registry) (context : Option Ctx)
    (node_id : String) (task_name : String) (task_args : Option (List Value))
    (task_kwargs : Option (Dict Value)) (depends_on : Option (List String))
    (consume_dependency_results : Bool) : Except StepError Ctx :=
  let context := context.getD []
  let task_args := task_args.getD []
  let task_kwargs := task_kwargs.getD []
  let depends_on := depends_on.getD []
  -- if node_id in context: return dict(context)  (the copy has equal content)
  if node_id ∈ dictKeys context then .ok context
  else
    let call_argsE : Except StepError (List Value) :=
      if consume_dependency_results ∧ depends_on ≠ [] then
        -- missing = [d for d in depends_on if d not in context]
        let missing := depends_on.filter (fun d => d ∉ dictKeys context)
        if missing ≠ [] then
          .error (.missingDependencyResult node_id missing
            (sortedStrings (dictKeys context)))
        else
          -- context[depends_on[0]] when there is a single parent, else
          -- [context[d] for d in depends_on]; `headD` is only reached when
          -- the length is exactly 1, so the default is never used.
          let payloadE : Except StepError Value :=
            if depends_on.length = 1 then ctxGet context (depends_on.headD "")
            else (depends_on.mapM (ctxGet context)).map Value.list
          payloadE.map (fun dep_payload => [dep_payload] ++ task_args)
      else .ok task_args
    match call_argsE with
    | .error e => .error e
    | .ok call_args =>
      match registry task_name with
      | none => .error (.unknownTask task_name)
      | some t =>
        -- result = t(*call_args, **task_kwargs); new_ctx = dict(context);
        -- new_ctx[node_id] = result; return new_ctx
        let result := t call_args task_kwargs
        .ok (dictSet context node_id result)

/-- `ExtractOneTask.run`: returns `context[node_id]`. -/
def ExtractOneTask.run (context : Ctx) (node_id : String) : Except StepError Value :=
  ctxGet context node_id

/-- `ExtractSinksTask.run`: `{}` for no sinks, the bare value for a single
sink, `{nid: context[nid] for nid in sink_node_ids}` otherwise. -/
def ExtractSinksTask.run (context : Ctx) (sink_node_ids : List String) :
    Except StepError Value :=
  if sink_node_ids = [] then .ok (.dict [])
  else if sink_node_ids.length = 1 then ctxGet context (sink_node_ids.headD "")
  else
    (sink_node_ids.foldlM
      (fun acc nid => (ctxGet context nid).map (fun v => dictSet acc nid v))
      ([] : Ctx)).map Value.dict

/-- `IdentityTask.run` from `src/core/scheduler/workflow_tasks.py`. -/
def IdentityTask.run (x : Value) : Value := x

/-! ## The Workflow data model (`src/core/scheduler/workflow.py`) -/

/-- The `Task` descriptor as the compiler sees it: `get_name()`, `get_args()`,
`get_kwargs()` of a registered task object. -/
structure TaskD where
  name : String
  args : List Value
  kwargs : Dict Value
deriving Repr

/-- `WorkflowNode`: frozen dataclass. -/
structure WorkflowNode where
  node_id : String
  task : TaskD
  depends_on : List String
  consume_dependency_results : Bool
deriving Repr

/-- The `Workflow` object state.  `_nodes` is an insertion-ordered dict whose
key always equals the stored node's `node_id`, so it is modelled as the list
of nodes in insertion order; the two memoization caches are dicts. -/
structure Workflow where
  name : String
  nodes : List WorkflowNode
  ancestors_cache : List (String × List String)
  depth_cache : List (String × Nat)

/-- Workflow/compiler errors: one constructor per `raise` site (`WorkflowError`
with its message data, `CycleError`, a Python `KeyError` on `_nodes[...]`),
plus the spec's compile-time error kinds and the fuel marker standing for the
divergence of unbounded recursion on cyclic inputs. -/
inductive WError where
  | duplicateNode (node_id : String)
  | missingDependency (node_id : String) (dep : String)
  | selfDependency (node_id : String)
  | cycle
  | noNodes
  | multipleSinks (sinks : List String)
  | unknownTarget (node_id : String)
  | relNoDeps (node_id : String) (prefix_id : String)
  | relJoinNotLca (node_id : String) (prefix_id : String) (deps : List String)
      (lca : Option String)
  | keyError (key : String)
  | fuelExhausted
  | emptyWorkflow
  | unknownNode (node_id : String)
deriving DecidableEq, Repr

/-- `Workflow(name)`. -/
def Workflow.init (name : String) : Workflow := ⟨name, [], [], []⟩

/-- Keys of `self._nodes`, in insertion order. -/
def Workflow.nodeIds (w : Workflow) : List String := w.nodes.map WorkflowNode.node_id

/-- `self._nodes.get(node_id)`. -/
def Workflow.node? (w : Workflow) (node_id : String) : Option WorkflowNode :=
  w.nodes.find? (fun n => n.node_id = node_id)

/-- The `depends_on` of the node stored under `node_id` (`[]` when absent). -/
def Workflow.depsOf (w : Workflow) (node_id : String) : List String :=
  ((w.node? node_id).map WorkflowNode.depends_on).getD []

/-- `Workflow.add`: raising leaves the object untouched, success appends the
new node and clears both caches.  The pair keeps the post-state visible even
on the error path. -/
def Workflow.add (w : Workflow) (task : TaskD) (node_id : String)
    (depends_on : List String) (consume_dependency_results : Bool) :
    Except WError String × Workflow :=
  if node_id ∈ w.nodeIds then (.error (.duplicateNode node_id), w)
  else
    (.ok node_id,
      { w with
        nodes := w.nodes ++ [⟨node_id, task, depends_on, consume_dependency_results⟩],
        ancestors_cache := [], depth_cache := [] })

/-- `Workflow._dependents_map`.  Python raises `KeyError` when a dependency id
is not a key of `dep_map`; every call site runs after `validate_dag`, where
all dependencies exist, so the absent-key update is modelled as a no-op. -/
def Workflow.dependents_map (w : Workflow) : List (String × List String) :=
  w.nodes.foldl
    (fun dep_map n =>
      n.depends_on.foldl
        (fun m dep =>
          m.map (fun p => if p.1 = dep then (p.1, p.2 ++ [n.node_id]) else p))
        dep_map)
    (w.nodeIds.map (fun nid => (nid, ([] : List String))))

/-- `Workflow.sinks`: ids with no dependents, in node insertion order. -/
def Workflow.sinks (w : Workflow) : List String :=
  w.dependents_map.filterMap (fun p => if p.2 = [] then some p.1 else none)

/-- `Workflow.uses_join`. -/
def Workflow.uses_join (w : Workflow) : Bool :=
  w.nodes.any (fun n => 1 < n.depends_on.length)

/-- The first loop of `validate_dag`: scan nodes in insertion order, their
dependencies in declared order, and report the first missing or self
dependency. -/
def Workflow.firstViolation (w : Workflow) : Option WError :=
  w.nodes.findSome? (fun n =>
    n.depends_on.findSome? (fun dep =>
      if dep ∉ w.nodeIds then some (.missingDependency n.node_id dep)
      else if dep = n.node_id then some (.selfDependency n.node_id)
      else none))

/-- The `indeg` dict after the construction loop of `validate_dag`:
`indeg[n.node_id] += 1` once per entry of `n.depends_on`, i.e. plus
`len(n.depends_on)` for each node. -/
def Workflow.kahnIndeg0 (w : Workflow) : String → Int :=
  w.nodes.foldl
    (fun ind n => fun x =>
      if x = n.node_id then ind x + n.depends_on.length else ind x)
    (fun _ => 0)

/-- The `children` dict after the construction loop of `validate_dag`:
`children[dep].append(n.node_id)` for each entry of each `depends_on`. -/
def Workflow.kahnChildren (w : Workflow) : String → List String :=
  w.nodes.foldl
    (fun ch n =>
      n.depends_on.foldl
        (fun c dep => fun x => if x = dep then c x ++ [n.node_id] else c x)
        ch)
    (fun _ => [])

/-- The inner `for ch in children[nid]` body of the Kahn loop:
`indeg[ch] -= 1; if indeg[ch] == 0: ready.append(ch)`.  The `ready` list is
kept reversed relative to Python: `append` is cons, `pop()` takes the head. -/
def kahnProcess (children : List String) (indeg : String → Int)
    (ready : List String) : (String → Int) × List String :=
  match children with
  | [] => (indeg, ready)
  | ch :: rest =>
    let indeg' := fun x => if x = ch then indeg x - 1 else indeg x
    let ready' := if indeg' ch = 0 then ch :: ready else ready
    kahnProcess rest indeg' ready'

/-- The `while ready:` loop of `validate_dag`.  Python's `visited` counter is
realized as the list of popped node ids (`visited = popped.length`); the
returned triple is the final loop state.  The fuel argument only bounds the
iteration count; it is chosen strictly above the number of possible pops. -/
def kahnLoop (childrenMap : String → List String) :
    Nat → (String → Int) → List String → List String →
      (String → Int) × List String × List String
  | 0, indeg, ready, popped => (indeg, ready, popped)
  | fuel + 1, indeg, ready, popped =>
    match ready with
    | [] => (indeg, ready, popped)
    | nid :: rest =>
      let (indeg', ready') := kahnProcess (childrenMap nid) indeg rest
      kahnLoop childrenMap fuel indeg' ready' (popped ++ [nid])

/-- `Workflow.validate_dag`. -/
def Workflow.validate_dag (w : Workflow) : Except WError Unit :=
  match w.firstViolation with
  | some e => .error e
  | none =>
    let indeg := w.kahnIndeg0
    let children := w.kahnChildren
    -- ready = [nid for nid, d in indeg.items() if d == 0], reversed so that
    -- list pop() is head and append is cons
    let ready0 := (w.nodeIds.filter (fun nid => indeg nid = 0)).reverse
    let st := kahnLoop children (w.nodes.length + 1) indeg ready0 []
    if st.2.2.length = w.nodes.length then .ok () else .error .cycle

/-! ## Graph helpers: `_ancestors`, `_depth`, `_lca`

These recursions are unbounded in Python (they diverge on cyclic graphs and
are only reached after validation); the fuel argument makes them total, and
`.fuelExhausted` stands for that divergence.  The memoization caches are
threaded explicitly: each function returns its result together with the
updated `Workflow` object. -/

/-- One iteration of a Python `for` loop body that calls a state-mutating,
possibly-raising operation `f` on the loop variable and combines its result
into an accumulator with `g`: a raised error short-circuits the remaining
iterations (the loop is then a `foldl` of this step). -/
def stepThread {α β : Type} (f : Workflow → String → Except WError β × Workflow)
    (g : α → String → β → α) (st : Except WError α × Workflow) (dep : String) :
    Except WError α × Workflow :=
  match st with
  | (.error e, w) => (.error e, w)
  | (.ok acc, w) =>
    match f w dep with
    | (.error e, w') => (.error e, w')
    | (.ok b, w') => (.ok (g acc dep b), w')

/-- `Workflow._ancestors`: cached backward closure of `depends_on`.
`self._nodes[node_id]` raises `KeyError` on an absent id.  The
`for dep in n.depends_on: acc.add(dep); acc |= self._ancestors(dep)` loop is
the `foldl` of `stepThread`, threading the running set, the mutated object
and any raised error. -/
def Workflow.ancestors : Workflow → Nat → String →
    Except WError (List String) × Workflow
  | w, 0, _ => (.error .fuelExhausted, w)
  | w, fuel + 1, node_id =>
    match w.ancestors_cache.lookup node_id with
    | some s => (.ok s, w)
    | none =>
      match w.node? node_id with
      | none => (.error (.keyError node_id), w)
      | some n =>
        match n.depends_on.foldl
            (stepThread (fun w' dep => Workflow.ancestors w' fuel dep)
              (fun acc dep s => setUnion (setInsert dep acc) s))
            ((.ok [], w) : Except WError (List String) × Workflow) with
        | (.error e, w') => (.error e, w')
        | (.ok acc, w') =>
          (.ok acc,
            { w' with ancestors_cache := dictSet w'.ancestors_cache node_id acc })

/-- `Workflow._depth`: cached longest-chain depth.  The running maximum of
`max(self._depth(dep) for dep in n.depends_on)` starts at 0, which is sound
because depths are naturals and the list is non-empty where it is taken. -/
def Workflow.depth : Workflow → Nat → String → Except WError Nat × Workflow
  | w, 0, _ => (.error .fuelExhausted, w)
  | w, fuel + 1, node_id =>
    match w.depth_cache.lookup node_id with
    | some d => (.ok d, w)
    | none =>
      match w.node? node_id with
      | none => (.error (.keyError node_id), w)
      | some n =>
        if n.depends_on = [] then
          (.ok 0, { w with depth_cache := dictSet w.depth_cache node_id 0 })
        else
          match n.depends_on.foldl
              (stepThread (fun w' dep => Workflow.depth w' fuel dep)
                (fun m _dep d => Nat.max m d))
              ((.ok 0, w) : Except WError Nat × Workflow) with
          | (.error e, w') => (.error e, w')
          | (.ok m, w') =>
            (.ok (1 + m),
              { w' with depth_cache := dictSet w'.depth_cache node_id (1 + m) })

/-- The `for nid in node_ids: s = ancestors(nid) | {nid}; common &= s` loop of
`_lca` (with `common` starting as `None`). -/
def lcaCommonFold : Workflow → Nat → List String → Option (List String) →
    Except WError (Option (List String)) × Workflow
  | w, _, [], common => (.ok common, w)
  | w, fuel, nid :: rest, common =>
    match Workflow.ancestors w fuel nid with
    | (.error e, w') => (.error e, w')
    | (.ok anc, w') =>
      let s := setInsert nid anc
      lcaCommonFold w' fuel rest
        (some (match common with | none => s | some c => setInter c s))

/-- The `max(common, key=self._depth)` of `_lca`, iterating a non-empty
candidate list with the first maximal element kept (later elements win only
with a strictly larger depth), starting from an initial best pair. -/
def lcaMaxByDepth : Workflow → Nat → List String → String × Nat →
    Except WError String × Workflow
  | w, _, [], best => (.ok best.1, w)
  | w, fuel, nid :: rest, best =>
    match Workflow.depth w fuel nid with
    | (.error e, w') => (.error e, w')
    | (.ok d, w') => lcaMaxByDepth w' fuel rest (if best.2 < d then (nid, d) else best)

/-- `Workflow._lca`.  CPython iterates `common` (a `set`) in unspecified hash
order when taking the maximum; the model iterates it in sorted order.  No
claim depends on the tie-breaking between equal depths. -/
def Workflow.lca (w : Workflow) (fuel : Nat) (node_ids : List String) :
    Except WError (Option String) × Workflow :=
  if node_ids = [] then (.ok none, w)
  else
    match lcaCommonFold w fuel node_ids none with
    | (.error e, w') => (.error e, w')
    | (.ok common, w') =>
      -- `if not common: return None` fused with the iteration of the set
      -- (canonical element list): it is empty exactly when the set is.
      -- CPython iterates a `set` in unspecified hash order here.
      match common.getD [] with
      | [] => (.ok none, w')
      | c0 :: cs =>
        match Workflow.depth w' fuel c0 with
        | (.error e, w'') => (.error e, w'')
        | (.ok d0, w'') =>
          match lcaMaxByDepth w'' fuel cs (c0, d0) with
          | (.error e, w3) => (.error e, w3)
          | (.ok m, w3) => (.ok (some m), w3)

/-! ## Compilation to the Celery canvas (`to_canvas`, `_compile_abs`,
`_compile_rel`) -/

/-- Celery canvas signatures as a tree: `app.signature(...)`, `chain`,
`group`, `chord`. -/
inductive Canvas where
  | sig (name : String) (args : List Value) (kwargs : Dict Value) (immutable : Bool)
  | chain (items : List Canvas)
  | group (items : List Canvas)
  | chord (header : List Canvas) (body : Canvas)
deriving Repr

/-- `Workflow._task_signature`. -/
def taskSignature (task : TaskD) (consume_upstream : Bool) : Canvas :=
  .sig task.name task.args task.kwargs (!consume_upstream)

/-- `Workflow._identity_signature`. -/
def identitySignature : Canvas := .sig "workflow.identity" [] [] false

/-- `Workflow._compile_rel`.  The list comprehension building the relative
header is the `foldl`, threading the item list, the object and any raised
error.  `_lca` takes its own fuel `w.nodes.length + 1` as at every use. -/
def Workflow.compile_rel : Workflow → Nat → String → String →
    Except WError Canvas × Workflow
  | w, 0, _, _ => (.error .fuelExhausted, w)
  | w, fuel + 1, prefix_id, node_id =>
    if node_id = prefix_id then (.ok identitySignature, w)
    else
      match w.node? node_id with
      | none => (.error (.keyError node_id), w)
      | some node =>
        let deps := node.depends_on
        if deps = [] then (.error (.relNoDeps node_id prefix_id), w)
        else
          let consume := node.consume_dependency_results
          let node_sig := taskSignature node.task consume
          if deps.length = 1 then
            match Workflow.compile_rel w fuel prefix_id (deps.headD "") with
            | (.error e, w') => (.error e, w')
            | (.ok sub, w') => (.ok (.chain [sub, node_sig]), w')
          else
            match Workflow.lca w (w.nodes.length + 1) deps with
            | (.error e, w') => (.error e, w')
            | (.ok lca?, w') =>
              if lca? ≠ some prefix_id then
                (.error (.relJoinNotLca node_id prefix_id deps lca?), w')
              else
                match deps.foldl
                    (stepThread
                      (fun w₁ d => Workflow.compile_rel w₁ fuel prefix_id d)
                      (fun items _d c => items ++ [c]))
                    ((.ok [], w') : Except WError (List Canvas) × Workflow) with
                | (.error e, w'') => (.error e, w'')
                | (.ok header, w'') =>
                  (.ok (.chain [.group header, node_sig]), w'')

/-- `Workflow._compile_abs`.  List comprehensions are `foldl`s as in
`compile_rel`; the relative header items are built with `compile_rel` at the
same remaining fuel. -/
def Workflow.compile_abs : Workflow → Nat → String → Except WError Canvas × Workflow
  | w, 0, _ => (.error .fuelExhausted, w)
  | w, fuel + 1, node_id =>
    match w.node? node_id with
    | none => (.error (.keyError node_id), w)
    | some node =>
      let deps := node.depends_on
      let consume := node.consume_dependency_results && decide (0 < deps.length)
      let node_sig := taskSignature node.task consume
      if deps = [] then (.ok node_sig, w)
      else if deps.length = 1 then
        match Workflow.compile_abs w fuel (deps.headD "") with
        | (.error e, w') => (.error e, w')
        | (.ok sub, w') => (.ok (.chain [sub, node_sig]), w')
      else
        match Workflow.lca w (w.nodes.length + 1) deps with
        | (.error e, w') => (.error e, w')
        | (.ok none, w') =>
          match deps.foldl
              (stepThread (fun w₁ d => Workflow.compile_abs w₁ fuel d)
                (fun items _d c => items ++ [c]))
              ((.ok [], w') : Except WError (List Canvas) × Workflow) with
          | (.error e, w'') => (.error e, w'')
          | (.ok header, w'') => (.ok (.chord header node_sig), w'')
        | (.ok (some lca_id), w') =>
          match Workflow.compile_abs w' fuel lca_id with
          | (.error e, w'') => (.error e, w'')
          | (.ok prefixSig, w'') =>
            match deps.foldl
                (stepThread
                  (fun w₁ d => Workflow.compile_rel w₁ fuel lca_id d)
                  (fun items _d c => items ++ [c]))
                ((.ok [], w'') : Except WError (List Canvas) × Workflow) with
            | (.error e, w3) => (.error e, w3)
            | (.ok header_items, w3) =>
              (.ok (.chain [prefixSig, .group header_items, node_sig]), w3)

/-- `Workflow.to_canvas`: validate, resolve the target (single sink when no
target is passed), then compile.  The returned pair keeps the post-state of
the object visible on both paths. -/
def Workflow.to_canvas (w : Workflow) (target_node_id : Option String) :
    Except WError Canvas × Workflow :=
  match w.validate_dag with
  | .error e => (.error e, w)
  | .ok _ =>
    let targetE : Except WError String :=
      match target_node_id with
      | some t => .ok t
      | none =>
        let s := w.sinks
        if s = [] then .error .noNodes
        else if s.length ≠ 1 then .error (.multipleSinks s)
        else .ok (s.headD "")
    match targetE with
    | .error e => (.error e, w)
    | .ok target =>
      if target ∉ w.nodeIds then (.error (.unknownTarget target), w)
      else Workflow.compile_abs w (w.nodes.length + 1) target

/-! ## Declarative graph notions used by the theorems -/

/-- One dependency edge, parent to child: `c` is a node of `w` and lists `p`
among its `depends_on`. -/
def Workflow.edge (w : Workflow) (p c : String) : Prop :=
  c ∈ w.nodeIds ∧ p ∈ w.depsOf c

/-- The `depends_on` relation has no (directed) cycle. -/
def Workflow.Acyclic (w : Workflow) : Prop :=
  ∀ n, ¬ Relation.TransGen w.edge n n

/-- Every id listed in any `depends_on` names an existing node. -/
def Workflow.DepsPresent (w : Workflow) : Prop :=
  ∀ n ∈ w.nodes, ∀ d ∈ n.depends_on, d ∈ w.nodeIds

/-- No node lists itself among its `depends_on`. -/
def Workflow.NoSelfDep (w : Workflow) : Prop :=
  ∀ n ∈ w.nodes, n.node_id ∉ n.depends_on

/-- `l` lists nodes in an order compatible with `depends_on`: every node's
dependencies occur strictly before it. -/
def Workflow.IsTopo (w : Workflow) (l : List String) : Prop :=
  ∀ l₁ n l₂, l = l₁ ++ n :: l₂ → ∀ d ∈ w.depsOf n, d ∈ l₁

/-- The state invariant of the Kahn loop in `validate_dag`: `indeg` counts,
for each node, its dependency occurrences whose parent is not yet popped;
`ready ∪ popped` are exactly the nodes all of whose dependencies are popped;
no node occurs twice across `ready` and `popped`; both lists stay inside the
node set; untracked strings keep in-degree 0; and the pop order is
topological. -/
def KahnInvariant (w : Workflow) (indeg : String → Int)
    (ready popped : List String) : Prop :=
  (∀ n ∈ w.nodeIds,
      indeg n = ((w.depsOf n).countP (fun d => decide (d ∉ popped)) : Int))
  ∧ (∀ n ∈ w.nodeIds, (n ∈ ready ∨ n ∈ popped) ↔ ∀ d ∈ w.depsOf n, d ∈ popped)
  ∧ (ready ++ popped).Nodup
  ∧ ready ⊆ w.nodeIds
  ∧ popped ⊆ w.nodeIds
  ∧ (∀ x, x ∉ w.nodeIds → indeg x = 0)
  ∧ w.IsTopo popped

/-! ## The linear-plan compiler of the specification

The step tasks above exist under `src/`, but the compiler that emits
`[InitContext, ExecuteNode…, Extract*]` plans (spec §4.2, the adopted
strategy (ii)) does not; the following definitions are modelled from the
spec's words. -/

/-- A `Step` of a compiled `Plan` (spec §4.2). -/
inductive Step where
  | initContext
  | executeNode (node_id : String) (task_name : String) (task_args : List Value)
      (task_kwargs : Dict Value) (depends_on : List String)
      (consume_dependency_results : Bool)
  | extractOne (node_id : String)
  | extractSinks (sink_node_ids : List String)
deriving Repr

/-- Modelled from the spec: `ancestor_closure(node_id)` (spec §4.1), absent
from `src/` — `{node_id} ∪ ancestors` via the source's `_ancestors`
recursion, failing with `UnknownNode` on an absent id.  The memoized cache of
the underlying traversal is discarded: the closure itself is the result. -/
def Workflow.ancestor_closure (w : Workflow) (node_id : String) :
    Except WError (List String) :=
  if node_id ∈ w.nodeIds then
    match Workflow.ancestors w (w.nodes.length + 1) node_id with
    | (.error e, _) => .error e
    | (.ok s, _) => .ok (setInsert node_id s)
  else .error (.unknownNode node_id)

/-- One selection step of the stable Kahn order (spec §4.1): among the nodes
of `selected` not yet emitted whose dependencies inside `selected` are all
emitted (in-degree zero in the induced subgraph), pick the one inserted
earliest into the workflow. -/
def Workflow.topoPick (w : Workflow) (selected popped : List String) :
    Option String :=
  w.nodeIds.find? (fun nid =>
    decide (nid ∈ selected) && decide (nid ∉ popped) &&
      decide (∀ d ∈ w.depsOf nid, d ∈ selected → d ∈ popped))

/-- The selection loop of `topological_order`; fuel `selected.length` bounds
the number of emissions. -/
def Workflow.topoGo (w : Workflow) (selected : List String) :
    Nat → List String → Except WError (List String)
  | 0, popped =>
    if selected.all (fun nid => nid ∈ popped) then .ok popped else .error .cycle
  | fuel + 1, popped =>
    if selected.all (fun nid => nid ∈ popped) then .ok popped
    else
      match w.topoPick selected popped with
      | some nid => w.topoGo selected fuel (popped ++ [nid])
      | none => .error .cycle

/-- Modelled from the spec: `topological_order(selected_set)` (spec §4.1),
absent from `src/` — stable Kahn order over the induced subgraph, earliest
inserted node first, failing with `Cycle` when the induced subgraph is
cyclic. -/
def Workflow.topological_order (w : Workflow) (selected : List String) :
    Except WError (List String) :=
  w.topoGo selected selected.length []

/-- Modelled from the spec: `compile(workflow, target_node_id?) → Plan`
(spec §4.2), absent from `src/` — validate, select the target's ancestor
closure or all nodes, order them, and emit
`InitContext, ExecuteNode…, ExtractOne/ExtractSinks`. -/
def Workflow.compile (w : Workflow) (target_node_id : Option String) :
    Except WError (List Step) :=
  match w.validate_dag with
  | .error e => .error e
  | .ok _ =>
    if w.nodes.isEmpty then .error .emptyWorkflow
    else
      let selectedE : Except WError (List String) :=
        match target_node_id with
        | some t =>
          match w.ancestor_closure t with
          | .error e => .error e
          | .ok s => .ok (w.nodeIds.filter (fun nid => nid ∈ s))
        | none => .ok w.nodeIds
      match selectedE with
      | .error e => .error e
      | .ok selected =>
        match w.topological_order selected with
        | .error e => .error e
        | .ok order =>
          let execs := order.map (fun nid =>
            let n := (w.node? nid).getD ⟨nid, ⟨"", [], []⟩, [], true⟩
            Step.executeNode n.node_id n.task.name n.task.args n.task.kwargs
              n.depends_on n.consume_dependency_results)
          let final :=
            match target_node_id with
            | some t => Step.extractOne t
            | none => Step.extractSinks w.sinks
          .ok ([Step.initContext] ++ execs ++ [final])

/-- Modelled from the spec: the substrate's `pipe` primitive running a
compiled plan (spec §4.4, §5) — steps run in emitted order, each receiving
the previous step's return value; `InitContext` opens the pipeline and an
extract step closes it. -/
def runSteps (registry : Registry) : Ctx → List Step → Except StepError Value
  | _, [] => .error .malformedPlan
  | _, .initContext :: _ => .error .malformedPlan
  | ctx, [.extractOne nid] => ExtractOneTask.run ctx nid
  | ctx, [.extractSinks sinks] => ExtractSinksTask.run ctx sinks
  | ctx, .executeNode nid tname targs tkwargs deps consume :: rest =>
    match ExecuteNodeTask.run registry (some ctx) nid tname (some targs)
        (some tkwargs) (some deps) consume with
    | .error e => .error e
    | .ok ctx' => runSteps registry ctx' rest
  | _, .extractOne _ :: _ :: _ => .error .malformedPlan
  | _, .extractSinks _ :: _ :: _ => .error .malformedPlan

/-- Modelled from the spec: run a whole plan, which must start with
`InitContext`. -/
def runPlan (registry : Registry) : List Step → Except StepError Value
  | .initContext :: rest => runSteps registry InitContextTask.run rest
  | _ => .error .malformedPlan

/-! ## Concrete example workflows and registries (spec §8) -/

/-- Descriptor of the spec's task `T` bound to argument `"x"`. -/
def taskTx : TaskD := ⟨"T", [.str "x"], []⟩

/-- Descriptor of the spec's task `F` (no bound arguments). -/
def taskF : TaskD := ⟨"F", [], []⟩

/-- Descriptor of the spec's task `G` (no bound arguments). -/
def taskG : TaskD := ⟨"G", [], []⟩

/-- Descriptor of the spec's join task `J` (no bound arguments). -/
def taskJ : TaskD := ⟨"J", [], []⟩

/-- E2: nodes `a: T("x")`, `b: F[a]`, `c: G[a]`. -/
def wfE2 : Workflow :=
  ⟨"e2", [⟨"a", taskTx, [], true⟩, ⟨"b", taskF, ["a"], true⟩,
          ⟨"c", taskG, ["a"], true⟩], [], []⟩

/-- The spec's task `T`: `run(x) = x`. -/
def taskFnT : TaskFn := fun args _ =>
  match args with | [v] => v | _ => .str "ERR"

/-- The spec's task `F`: `run(x) = x + "f"`. -/
def taskFnF : TaskFn := fun args _ =>
  match args with | [.str s] => .str (s ++ "f") | _ => .str "ERR"

/-- The spec's task `G`: `run(x) = x + "g"`. -/
def taskFnG : TaskFn := fun args _ =>
  match args with | [.str s] => .str (s ++ "g") | _ => .str "ERR"

/-- The spec's join task `J`: `run(a, b) = a + "|" + b`, receiving its two
parent results as a single list payload. -/
def taskFnJ : TaskFn := fun args _ =>
  match args with
  | [.list [.str a, .str b]] => .str (a ++ "|" ++ b)
  | _ => .str "ERR"

/-- Registry with the spec's tasks `T`, `F`, `G`, `J` registered. -/
def regSpec : Registry := fun name =>
  if name = "T" then some taskFnT
  else if name = "F" then some taskFnF
  else if name = "G" then some taskFnG
  else if name = "J" then some taskFnJ
  else none

/-- E1: the diamond `a: T("x")`, `b: F[a]`, `c: G[a]`, `d: J[b,c]`. -/
def wfDiamond : Workflow :=
  ⟨"diamond", [⟨"a", taskTx, [], true⟩, ⟨"b", taskF, ["a"], true⟩,
               ⟨"c", taskG, ["a"], true⟩, ⟨"d", taskJ, ["b", "c"], true⟩], [], []⟩

/-- E5: the two-cycle `a depends_on [b]`, `b depends_on [a]`. -/
def wfCycle : Workflow :=
  ⟨"cyc", [⟨"a", taskTx, ["b"], true⟩, ⟨"b", taskF, ["a"], true⟩], [], []⟩

/-- A valid DAG whose multi-parent join does not factor around a single
lowest common ancestor: roots `a`, `e`; `b: [a]`; `c: [a, e]`; `d: [b, c]`. -/
def wfJoinBad : Workflow :=
  ⟨"joinbad", [⟨"a", taskTx, [], true⟩, ⟨"e", taskTx, [], true⟩,
               ⟨"b", taskF, ["a"], true⟩, ⟨"c", taskG, ["a", "e"], true⟩,
               ⟨"d", taskJ, ["b", "c"], true⟩], [], []⟩

/-- A three-node chain `a ← b ← c`, used as a witness input. -/
def wfChain : Workflow :=
  ⟨"chain", [⟨"a", taskTx, [], true⟩, ⟨"b", taskF, ["a"], true⟩,
             ⟨"c", taskG, ["b"], true⟩], [], []⟩

/-- A small concrete context used by witness instances. -/
def ctxAB : Ctx := [("a", .str "va"), ("b", .str "vb")]

/-! # Theorems -/

/-! ## Dictionary lemmas -/

theorem dictGet?_cons_eq {α : Type} (k : String) (v : α) (rest : Dict α) :
    dictGet? ((k, v) :: rest) k = some v := by
  simp [dictGet?, List.lookup]

theorem dictGet?_cons_ne {α : Type} {k k' : String} (h : k ≠ k') (v : α)
    (rest : Dict α) : dictGet? ((k', v) :: rest) k = dictGet? rest k := by
  simp [dictGet?, List.lookup, beq_false_of_ne h]

theorem dictGet?_isSome_iff_mem {α : Type} (d : Dict α) (k : String) :
    (dictGet? d k).isSome ↔ k ∈ dictKeys d := by
  induction d with
  | nil => simp [dictGet?, dictKeys, List.lookup]
  | cons p rest ih =>
    obtain ⟨k', v'⟩ := p
    by_cases h : k = k'
    · subst h; simp [dictGet?_cons_eq, dictKeys]
    · rw [dictGet?_cons_ne h]
      simp only [dictKeys, List.map_cons, List.mem_cons]
      rw [ih]
      simp [dictKeys, h]

theorem dictGet?_eq_none_of_not_mem {α : Type} {d : Dict α} {k : String}
    (h : k ∉ dictKeys d) : dictGet? d k = none := by
  have := (dictGet?_isSome_iff_mem d k).not.mpr h
  cases hd : dictGet? d k with
  | none => rfl
  | some v => rw [hd] at this; simp at this

theorem mem_dictKeys_of_dictGet? {α : Type} {d : Dict α} {k : String} {v : α}
    (h : dictGet? d k = some v) : k ∈ dictKeys d := by
  have : (dictGet? d k).isSome := by rw [h]; rfl
  exact (dictGet?_isSome_iff_mem d k).mp this

theorem dictGet?_dictSet_self {α : Type} (d : Dict α) (k : String) (v : α) :
    dictGet? (dictSet d k v) k = some v := by
  induction d with
  | nil => simp [dictSet, dictGet?_cons_eq]
  | cons p rest ih =>
    obtain ⟨k', v'⟩ := p
    by_cases h : k' = k
    · subst h; simp [dictSet, dictGet?_cons_eq]
    · rw [dictSet, if_neg h, dictGet?_cons_ne (Ne.symm h)]
      exact ih

theorem dictGet?_dictSet_ne {α : Type} (d : Dict α) {k k' : String} (v : α)
    (h : k' ≠ k) : dictGet? (dictSet d k v) k' = dictGet? d k' := by
  induction d with
  | nil => rw [dictSet, dictGet?_cons_ne h]
  | cons p rest ih =>
    obtain ⟨k₀, v₀⟩ := p
    by_cases h0 : k₀ = k
    · subst h0
      rw [dictSet, if_pos rfl, dictGet?_cons_ne h, dictGet?_cons_ne h]
    · rw [dictSet, if_neg h0]
      by_cases h1 : k' = k₀
      · subst h1; rw [dictGet?_cons_eq, dictGet?_cons_eq]
      · rw [dictGet?_cons_ne h1, dictGet?_cons_ne h1]
        exact ih

theorem dictKeys_dictSet_of_not_mem {α : Type} {d : Dict α} {k : String} (v : α)
    (h : k ∉ dictKeys d) : dictKeys (dictSet d k v) = dictKeys d ++ [k] := by
  induction d with
  | nil => simp [dictSet, dictKeys]
  | cons p rest ih =>
    obtain ⟨k₀, v₀⟩ := p
    simp only [dictKeys, List.map_cons, List.mem_cons] at h
    push_neg at h
    have hk0 : ¬ k₀ = k := fun hh => h.1 hh.symm
    simp only [dictSet, if_neg hk0, dictKeys, List.map_cons, List.cons_append,
      List.cons.injEq, true_and]
    exact ih h.2

theorem mem_dictKeys_dictSet {α : Type} (d : Dict α) (k k' : String) (v : α) :
    k' ∈ dictKeys (dictSet d k v) ↔ k' = k ∨ k' ∈ dictKeys d := by
  induction d with
  | nil => simp [dictSet, dictKeys]
  | cons p rest ih =>
    obtain ⟨k₀, v₀⟩ := p
    by_cases h0 : k₀ = k
    · subst h0; simp [dictSet, dictKeys]
    · simp only [dictSet, if_neg h0, dictKeys, List.map_cons, List.mem_cons] at ih ⊢
      rw [ih]
      constructor
      · rintro (h | h | h) <;> tauto
      · rintro (h | h | h) <;> tauto

theorem ctxGet_eq_ok {ctx : Ctx} {k : String} {v : Value} :
    ctxGet ctx k = .ok v ↔ dictGet? ctx k = some v := by
  unfold ctxGet
  cases h : dictGet? ctx k <;> simp

theorem ctxGet_of_mem {ctx : Ctx} {k : String} (h : k ∈ dictKeys ctx) :
    ∃ v, dictGet? ctx k = some v ∧ ctxGet ctx k = .ok v := by
  have := (dictGet?_isSome_iff_mem ctx k).mpr h
  cases hd : dictGet? ctx k with
  | none => rw [hd] at this; simp at this
  | some v => exact ⟨v, rfl, by simp [ctxGet, hd]⟩

/-! ## `ExecuteNodeTask.run` characterization lemmas -/

theorem executeNode_run_mem (reg : Registry) (ctx : Ctx) (nid tname : String)
    (targs : List Value) (tkw : Dict Value) (deps : List String) (flag : Bool)
    (hmem : nid ∈ dictKeys ctx) :
    ExecuteNodeTask.run reg (some ctx) nid tname (some targs) (some tkw)
      (some deps) flag = .ok ctx := by
  unfold ExecuteNodeTask.run
  simp only [Option.getD_some]
  rw [if_pos hmem]

theorem executeNode_run_consume (reg : Registry) (ctx : Ctx) (nid tname : String)
    (targs : List Value) (tkw : Dict Value) (deps : List String)
    (hnew : nid ∉ dictKeys ctx) (hne : deps ≠ [])
    (hall : ∀ d ∈ deps, d ∈ dictKeys ctx) :
    ExecuteNodeTask.run reg (some ctx) nid tname (some targs) (some tkw)
      (some deps) true =
      match (if deps.length = 1 then ctxGet ctx (deps.headD "")
             else (deps.mapM (ctxGet ctx)).map Value.list) with
      | .error e => .error e
      | .ok payload =>
        match reg tname with
        | none => .error (.unknownTask tname)
        | some t => .ok (dictSet ctx nid (t ([payload] ++ targs) tkw)) := by
  unfold ExecuteNodeTask.run
  simp only [Option.getD_some]
  rw [if_neg hnew]
  have hfilter : deps.filter (fun d => decide (d ∉ dictKeys ctx)) = [] := by
    rw [List.filter_eq_nil_iff]
    intro d hd
    simpa using hall d hd
  rw [if_pos (And.intro (by trivial) hne)]
  rw [hfilter]
  rw [if_neg (by simp)]
  cases hpe : (if deps.length = 1 then ctxGet ctx (deps.headD "")
      else (deps.mapM (ctxGet ctx)).map Value.list) with
  | error e => simp [Except.map]
  | ok payload => cases reg tname <;> simp [Except.map]

theorem executeNode_run_noconsume (reg : Registry) (ctx : Ctx)
    (nid tname : String) (targs : List Value) (tkw : Dict Value)
    (deps : List String) (flag : Bool) (hnew : nid ∉ dictKeys ctx)
    (hoff : flag = false ∨ deps = []) :
    ExecuteNodeTask.run reg (some ctx) nid tname (some targs) (some tkw)
      (some deps) flag =
      match reg tname with
      | none => .error (.unknownTask tname)
      | some t => .ok (dictSet ctx nid (t targs tkw)) := by
  unfold ExecuteNodeTask.run
  simp only [Option.getD_some]
  rw [if_neg hnew]
  have hcond : ¬ ((flag = true) ∧ deps ≠ []) := by
    rcases hoff with h | h
    · subst h; rintro ⟨h1, -⟩; cases h1
    · subst h; rintro ⟨-, h2⟩; exact h2 rfl
  rw [if_neg hcond]

theorem executeNode_run_ok_shape {reg : Registry} {ctx ctx' : Ctx}
    {nid tname : String} {targs : List Value} {tkw : Dict Value}
    {deps : List String} {flag : Bool}
    (hok : ExecuteNodeTask.run reg (some ctx) nid tname (some targs) (some tkw)
      (some deps) flag = .ok ctx') :
    ctx' = ctx ∨ (nid ∉ dictKeys ctx ∧ ∃ v, ctx' = dictSet ctx nid v) := by
  unfold ExecuteNodeTask.run at hok
  simp only [Option.getD_some] at hok
  by_cases hmem : nid ∈ dictKeys ctx
  · rw [if_pos hmem] at hok
    left
    exact (Except.ok.inj hok).symm
  · rw [if_neg hmem] at hok
    right
    refine ⟨hmem, ?_⟩
    split at hok
    · cases hok
    · split at hok
      · cases hok
      · exact ⟨_, (Except.ok.inj hok).symm⟩

/-! ## Claim C2: user-task calling convention -/

/-- C2.  When `ExecuteNode` runs a fresh node with
`consume_dependency_results = true`, a non-empty `depends_on` all of whose
parents are in the context, the task registered under `task_name` is applied
to `ctx[p] :: task_args` for a single parent `p`, and to
`[ctx[p1], …, ctx[pk]] :: task_args` (declared order) for `k ≥ 2` parents;
with the flag off or no parents it is applied to exactly `task_args`; in all
cases the keyword arguments are exactly `task_kwargs`. -/
theorem executeNode_calling_convention (reg : Registry) (f : TaskFn) (ctx : Ctx)
    (nid tname : String) (targs : List Value) (tkw : Dict Value)
    (deps : List String) (flag : Bool)
    (hreg : reg tname = some f) (hnew : nid ∉ dictKeys ctx) :
    (∀ p, flag = true → deps = [p] → p ∈ dictKeys ctx →
      ∃ v, dictGet? ctx p = some v ∧
        ExecuteNodeTask.run reg (some ctx) nid tname (some targs) (some tkw)
          (some deps) flag = .ok (dictSet ctx nid (f (v :: targs) tkw)))
    ∧ (flag = true → 2 ≤ deps.length → (∀ d ∈ deps, d ∈ dictKeys ctx) →
      ∃ vs, deps.mapM (ctxGet ctx) = .ok vs ∧
        ExecuteNodeTask.run reg (some ctx) nid tname (some targs) (some tkw)
          (some deps) flag = .ok (dictSet ctx nid (f (Value.list vs :: targs) tkw)))
    ∧ ((flag = false ∨ deps = []) →
        ExecuteNodeTask.run reg (some ctx) nid tname (some targs) (some tkw)
          (some deps) flag = .ok (dictSet ctx nid (f targs tkw))) := by
  refine ⟨?_, ?_, ?_⟩
  · intro p hflag hdeps hp
    subst hflag hdeps
    obtain ⟨v, hv, hget⟩ := ctxGet_of_mem hp
    refine ⟨v, hv, ?_⟩
    rw [executeNode_run_consume reg ctx nid tname targs tkw [p] hnew (by simp)
      (by simpa using hp)]
    simp [hget, hreg]
  · intro hflag hlen hall
    subst hflag
    have hne : deps ≠ [] := by
      intro h; rw [h] at hlen; simp at hlen
    have hmap : ∃ vs, deps.mapM (ctxGet ctx) = .ok vs := by
      clear hlen hne
      induction deps with
      | nil => exact ⟨[], rfl⟩
      | cons d rest ih =>
        obtain ⟨v, -, hget⟩ := ctxGet_of_mem (hall d (by simp))
        obtain ⟨vs, hvs⟩ := ih (fun d hd => hall d (by simp [hd]))
        refine ⟨v :: vs, ?_⟩
        rw [List.mapM_cons, hget, hvs]
        rfl
    obtain ⟨vs, hvs⟩ := hmap
    refine ⟨vs, hvs, ?_⟩
    rw [executeNode_run_consume reg ctx nid tname targs tkw deps hnew hne hall]
    have hlen1 : ¬ deps.length = 1 := by omega
    rw [if_neg hlen1, hvs]
    simp only [Except.map]
    rw [hreg]
    rfl
  · intro hoff
    rw [executeNode_run_noconsume reg ctx nid tname targs tkw deps flag hnew hoff]
    simp [hreg]

/-- C2 witness: node `b` with single parent `a` mapped to `"x"` in the
context; the task `F` receives `"x"` as first positional argument and
produces `"xf"`. -/
theorem executeNode_calling_convention_witness :
    (regSpec "F" = some taskFnF ∧ "b" ∉ dictKeys [("a", Value.str "x")]) ∧
      (∃ v, dictGet? [("a", Value.str "x")] "a" = some v ∧
        ExecuteNodeTask.run regSpec (some [("a", Value.str "x")]) "b" "F"
          (some []) (some []) (some ["a"]) true =
          .ok (dictSet [("a", Value.str "x")] "b" (taskFnF (v :: []) []))) := by
  refine ⟨⟨rfl, by simp [dictKeys]⟩, ?_⟩
  exact (executeNode_calling_convention regSpec taskFnF [("a", Value.str "x")]
    "b" "F" [] [] ["a"] true rfl (by simp [dictKeys])).1 "a" rfl rfl
    (by simp [dictKeys])

/-! ## Claim C4: missing dependency results -/

/-- C4.  With the consume flag on, a non-empty `depends_on` and a fresh
`node_id`, `ExecuteNode` fails exactly when some parent id is absent from the
context; the error carries the node id, the missing parents in declared
order, and the sorted context keys; the failure does not depend on the
registry (no task is invoked), and when all parents are present no
`MissingDependencyResult` error can be produced. -/
theorem executeNode_missing_dependency (ctx : Ctx) (nid tname : String)
    (targs : List Value) (tkw : Dict Value) (deps : List String)
    (hnew : nid ∉ dictKeys ctx) (hne : deps ≠ []) :
    ((∃ d ∈ deps, d ∉ dictKeys ctx) →
      ∀ reg : Registry,
        ExecuteNodeTask.run reg (some ctx) nid tname (some targs) (some tkw)
          (some deps) true =
        .error (.missingDependencyResult nid
          (deps.filter (fun d => d ∉ dictKeys ctx))
          (sortedStrings (dictKeys ctx))))
    ∧ ((∀ d ∈ deps, d ∈ dictKeys ctx) →
      ∀ (reg : Registry) (n : String) (mi av : List String),
        ExecuteNodeTask.run reg (some ctx) nid tname (some targs) (some tkw)
          (some deps) true ≠ .error (.missingDependencyResult n mi av)) := by
  constructor
  · rintro ⟨d, hd, hdmiss⟩ reg
    unfold ExecuteNodeTask.run
    simp only [Option.getD_some]
    rw [if_neg hnew, if_pos (And.intro (by trivial) hne)]
    have hfil : deps.filter (fun d => decide (d ∉ dictKeys ctx)) ≠ [] := by
      intro h
      have : d ∈ deps.filter (fun d => decide (d ∉ dictKeys ctx)) :=
        List.mem_filter.mpr ⟨hd, by simpa using hdmiss⟩
      rw [h] at this
      simp at this
    rw [if_pos hfil]
  · intro hall reg n mi av
    rw [executeNode_run_consume reg ctx nid tname targs tkw deps hnew hne hall]
    by_cases h1 : deps.length = 1
    · obtain ⟨d, hd⟩ : ∃ d, deps = [d] := by
        cases deps with
        | nil => cases hne rfl
        | cons a l => cases l with
          | nil => exact ⟨a, rfl⟩
          | cons b l' => simp at h1
      subst hd
      obtain ⟨v, -, hget⟩ := ctxGet_of_mem (hall d (by simp))
      simp only [if_pos h1, List.headD]
      rw [hget]
      cases reg tname <;> simp
    · have hmap : ∃ vs, deps.mapM (ctxGet ctx) = .ok vs := by
        clear hne h1
        induction deps with
        | nil => exact ⟨[], rfl⟩
        | cons d rest ih =>
          obtain ⟨v, -, hget⟩ := ctxGet_of_mem (hall d (by simp))
          obtain ⟨vs, hvs⟩ := ih (fun d hd => hall d (by simp [hd]))
          refine ⟨v :: vs, ?_⟩
          rw [List.mapM_cons, hget, hvs]
          rfl
      obtain ⟨vs, hvs⟩ := hmap
      rw [if_neg h1, hvs]
      simp only [Except.map]
      cases reg tname <;> simp

/-- C4 witness: node `b` with parents `["a", "zz"]` over a context holding
only `"a"`: the step fails with the missing parent `"zz"` and the sorted
available keys `["a"]`, for the concrete registry. -/
theorem executeNode_missing_dependency_witness :
    ("b" ∉ dictKeys [("a", Value.str "x")] ∧ (["a", "zz"] : List String) ≠ []) ∧
      ExecuteNodeTask.run regSpec (some [("a", Value.str "x")]) "b" "F"
        (some []) (some []) (some ["a", "zz"]) true =
        .error (.missingDependencyResult "b" ["zz"] ["a"]) := by
  refine ⟨⟨by simp [dictKeys], by simp⟩, ?_⟩
  have h := (executeNode_missing_dependency [("a", Value.str "x")] "b" "F"
    [] [] ["a", "zz"] (by simp [dictKeys]) (by simp)).1
    ⟨"zz", by simp, by simp [dictKeys]⟩ regSpec
  rw [h]
  rfl

/-! ## Claim C5: context preservation and the idempotence guard -/

/-- C5.  `ExecuteNode` never disturbs existing context entries: when
`node_id` is already a key, the step returns the context unchanged whatever
the registry (no task invoked); and whenever the step succeeds, every key
present in the input context keeps its value in the output context.  (The
step is a pure function of the input context here, so in-place mutation of
the caller's mapping cannot occur by construction.) -/
theorem executeNode_context_invariant (reg : Registry) (ctx : Ctx)
    (nid tname : String) (targs : List Value) (tkw : Dict Value)
    (deps : List String) (flag : Bool) :
    (nid ∈ dictKeys ctx →
      ∀ reg' : Registry,
        ExecuteNodeTask.run reg' (some ctx) nid tname (some targs) (some tkw)
          (some deps) flag = .ok ctx)
    ∧ (∀ ctx',
        ExecuteNodeTask.run reg (some ctx) nid tname (some targs) (some tkw)
          (some deps) flag = .ok ctx' →
        ∀ k ∈ dictKeys ctx, dictGet? ctx' k = dictGet? ctx k) := by
  constructor
  · intro hmem reg'
    exact executeNode_run_mem reg' ctx nid tname targs tkw deps flag hmem
  · intro ctx' hok k hk
    rcases executeNode_run_ok_shape hok with h | ⟨hnid, v, h⟩
    · rw [h]
    · rw [h]
      exact dictGet?_dictSet_ne ctx v (fun he => hnid (he ▸ hk))

/-- C5 witness: with `"a"` already in the context the step returns the
context unchanged, and a successful fresh run preserves the binding of
`"a"`. -/
theorem executeNode_context_invariant_witness :
    ("a" ∈ dictKeys ctxAB) ∧
      ExecuteNodeTask.run regSpec (some ctxAB) "a" "F" (some []) (some [])
        (some []) true = .ok ctxAB := by
  refine ⟨by simp [ctxAB, dictKeys], ?_⟩
  exact (executeNode_context_invariant regSpec ctxAB "a" "F" [] [] [] true).1
    (by simp [ctxAB, dictKeys]) regSpec

/-! ## Claim C6: `ExtractSinks` projection -/

theorem dictKeys_dictSet_of_mem {α : Type} {d : Dict α} {k : String} (v : α)
    (h : k ∈ dictKeys d) : dictKeys (dictSet d k v) = dictKeys d := by
  induction d with
  | nil => simp [dictKeys] at h
  | cons p rest ih =>
    obtain ⟨k₀, v₀⟩ := p
    by_cases h0 : k₀ = k
    · subst h0; simp [dictSet, dictKeys]
    · simp only [dictKeys, List.map_cons, List.mem_cons] at h
      rcases h with h | h
      · exact absurd h.symm h0
      · simp only [dictSet, if_neg h0, dictKeys, List.map_cons, List.cons.injEq,
          true_and]
        exact ih h

theorem dictKeys_dictSet_nodup {α : Type} {d : Dict α} (k : String) (v : α)
    (h : (dictKeys d).Nodup) : (dictKeys (dictSet d k v)).Nodup := by
  by_cases hk : k ∈ dictKeys d
  · rw [dictKeys_dictSet_of_mem v hk]; exact h
  · rw [dictKeys_dictSet_of_not_mem v hk]
    simpa [List.nodup_append] using ⟨h, hk⟩

/-- The `{nid: context[nid] for nid in sink_node_ids}` comprehension, when
every listed id is present. -/
theorem extractSinksFold_ok (ctx : Ctx) (ids : List String) (acc : Ctx)
    (hall : ∀ i ∈ ids, i ∈ dictKeys ctx) :
    ∃ m, ids.foldlM
        (fun acc nid => (ctxGet ctx nid).map (fun v => dictSet acc nid v)) acc
        = .ok m
      ∧ (∀ k, dictGet? m k = if k ∈ ids then dictGet? ctx k else dictGet? acc k)
      ∧ (∀ k, k ∈ dictKeys m ↔ k ∈ ids ∨ k ∈ dictKeys acc)
      ∧ ((dictKeys acc).Nodup → (dictKeys m).Nodup) := by
  induction ids generalizing acc with
  | nil => exact ⟨acc, rfl, by simp, by simp, fun h => h⟩
  | cons i rest ih =>
    obtain ⟨v, hv, hget⟩ := ctxGet_of_mem (hall i (by simp))
    obtain ⟨m, hm, hmget, hmkeys, hmnodup⟩ :=
      ih (dictSet acc i v) (fun d hd => hall d (by simp [hd]))
    refine ⟨m, ?_, ?_, ?_, ?_⟩
    · rw [List.foldlM_cons, hget]
      simpa [Except.map] using hm
    · intro k
      rw [hmget k]
      by_cases hk : k ∈ rest
      · simp [hk]
      · by_cases hki : k = i
        · subst hki
          simp [hk, dictGet?_dictSet_self, hv]
        · simp [hk, hki, dictGet?_dictSet_ne acc v hki]
    · intro k
      rw [hmkeys k, mem_dictKeys_dictSet]
      constructor
      · rintro (h | h | h) <;> simp [h]
      · rintro (h | h)
        · rcases List.mem_cons.mp h with h | h
          · exact Or.inr (Or.inl h)
          · exact Or.inl h
        · tauto
    · intro hacc
      exact hmnodup (dictKeys_dictSet_nodup i v hacc)

/-- The comprehension fails with a `KeyError` on a listed id that is absent
from the context. -/
theorem extractSinksFold_err (ctx : Ctx) (ids : List String) (acc : Ctx)
    (hex : ∃ i ∈ ids, i ∉ dictKeys ctx) :
    ∃ k ∈ ids, k ∉ dictKeys ctx ∧
      ids.foldlM
        (fun acc nid => (ctxGet ctx nid).map (fun v => dictSet acc nid v)) acc
        = .error (.keyError k) := by
  induction ids generalizing acc with
  | nil => simp at hex
  | cons i rest ih =>
    by_cases hi : i ∈ dictKeys ctx
    · obtain ⟨v, -, hget⟩ := ctxGet_of_mem hi
      have hex' : ∃ j ∈ rest, j ∉ dictKeys ctx := by
        rcases hex with ⟨j, hj, hjm⟩
        rcases List.mem_cons.mp hj with h | h
        · exact absurd (h ▸ hi) hjm
        · exact ⟨j, h, hjm⟩
      obtain ⟨k, hk, hkm, hke⟩ := ih (dictSet acc i v) hex'
      refine ⟨k, by simp [hk], hkm, ?_⟩
      rw [List.foldlM_cons, hget]
      simpa [Except.map] using hke
    · refine ⟨i, by simp, hi, ?_⟩
      rw [List.foldlM_cons]
      have : ctxGet ctx i = .error (.keyError i) := by
        simp [ctxGet, dictGet?_eq_none_of_not_mem hi]
      rw [this]
      rfl

/-- C6.  `ExtractSinks` returns `{}` on an empty sink list, the bare context
value for a single sink, and otherwise the mapping from each listed id to
its context value (keys exactly the listed ids, no duplicates); on a
non-empty list containing an id absent from the context it fails with a
`KeyError` naming such an id. -/
theorem extractSinks_projection (ctx : Ctx) (sink_ids : List String) :
    (sink_ids = [] → ExtractSinksTask.run ctx sink_ids = .ok (.dict []))
    ∧ (∀ s v, sink_ids = [s] → dictGet? ctx s = some v →
        ExtractSinksTask.run ctx sink_ids = .ok v)
    ∧ (2 ≤ sink_ids.length → (∀ i ∈ sink_ids, i ∈ dictKeys ctx) →
        ∃ m, ExtractSinksTask.run ctx sink_ids = .ok (.dict m)
          ∧ (∀ i ∈ sink_ids, dictGet? m i = dictGet? ctx i)
          ∧ (∀ k, k ∈ dictKeys m ↔ k ∈ sink_ids)
          ∧ (dictKeys m).Nodup)
    ∧ (sink_ids ≠ [] → (∃ i ∈ sink_ids, i ∉ dictKeys ctx) →
        ∃ k ∈ sink_ids, k ∉ dictKeys ctx ∧
          ExtractSinksTask.run ctx sink_ids = .error (.keyError k)) := by
  refine ⟨?_, ?_, ?_, ?_⟩
  · intro h; subst h; rfl
  · intro s v hs hv
    subst hs
    unfold ExtractSinksTask.run
    rw [if_neg (by simp), if_pos (by simp)]
    simp [List.headD, ctxGet, hv]
  · intro hlen hall
    obtain ⟨m, hm, hmget, hmkeys, hmnodup⟩ := extractSinksFold_ok ctx sink_ids [] hall
    refine ⟨m, ?_, ?_, ?_, hmnodup (by simp [dictKeys])⟩
    · unfold ExtractSinksTask.run
      rw [if_neg (by rintro rfl; simp at hlen), if_neg (by omega), hm]
      rfl
    · intro i hi
      rw [hmget i, if_pos hi]
    · intro k
      rw [hmkeys k]
      simp [dictKeys]
  · intro hne hex
    by_cases h1 : sink_ids.length = 1
    · obtain ⟨s, hs⟩ : ∃ s, sink_ids = [s] := by
        cases sink_ids with
        | nil => cases hne rfl
        | cons a l => cases l with
          | nil => exact ⟨a, rfl⟩
          | cons b l' => simp at h1
      subst hs
      obtain ⟨i, hi, him⟩ := hex
      rcases List.mem_cons.mp hi with h | h
      · subst h
        refine ⟨i, by simp, him, ?_⟩
        unfold ExtractSinksTask.run
        rw [if_neg (by simp), if_pos (by simp)]
        simp [List.headD, ctxGet, dictGet?_eq_none_of_not_mem him]
      · simp at h
    · obtain ⟨k, hk, hkm, hke⟩ := extractSinksFold_err ctx sink_ids [] hex
      refine ⟨k, hk, hkm, ?_⟩
      unfold ExtractSinksTask.run
      rw [if_neg hne, if_neg h1, hke]
      rfl

/-- C6 witness: two sinks `["a", "b"]` over the two-entry context: the step
returns a mapping binding both ids to their context values. -/
theorem extractSinks_projection_witness :
    (2 ≤ (["a", "b"] : List String).length ∧
      (∀ i ∈ (["a", "b"] : List String), i ∈ dictKeys ctxAB)) ∧
      ∃ m, ExtractSinksTask.run ctxAB ["a", "b"] = .ok (.dict m)
        ∧ (∀ i ∈ (["a", "b"] : List String), dictGet? m i = dictGet? ctxAB i)
        ∧ (∀ k, k ∈ dictKeys m ↔ k ∈ (["a", "b"] : List String))
        ∧ (dictKeys m).Nodup := by
  refine ⟨⟨by simp, by intro i hi; fin_cases hi <;> simp [ctxAB, dictKeys]⟩, ?_⟩
  exact (extractSinks_projection ctxAB ["a", "b"]).2.2.1 (by simp)
    (by intro i hi; fin_cases hi <;> simp [ctxAB, dictKeys])

/-! ## Claim C7: `Workflow.add` -/

/-- C7.  `add` fails with `DuplicateNode` exactly when the id is already
present, leaving the node mapping unchanged; on a fresh id it returns the id
and appends exactly the new node record. -/
theorem workflow_add_spec (w : Workflow) (task : TaskD) (nid : String)
    (deps : List String) (flag : Bool) :
    ((w.add task nid deps flag).1 = .error (.duplicateNode nid) ↔ nid ∈ w.nodeIds)
    ∧ (nid ∈ w.nodeIds → (w.add task nid deps flag).2 = w)
    ∧ (nid ∉ w.nodeIds →
        (w.add task nid deps flag).1 = .ok nid ∧
        (w.add task nid deps flag).2.nodes = w.nodes ++ [⟨nid, task, deps, flag⟩]) := by
  by_cases hmem : nid ∈ w.nodeIds
  · refine ⟨⟨fun _ => hmem, fun _ => ?_⟩, fun _ => ?_, fun h => absurd hmem h⟩
    · unfold Workflow.add; rw [if_pos hmem]
    · unfold Workflow.add; rw [if_pos hmem]
  · refine ⟨⟨fun h => ?_, fun h => absurd h hmem⟩, fun h => absurd h hmem,
      fun _ => ⟨?_, ?_⟩⟩
    · unfold Workflow.add at h
      rw [if_neg hmem] at h
      cases h
    · unfold Workflow.add; rw [if_neg hmem]
    · unfold Workflow.add; rw [if_neg hmem]

/-- C7 witness: adding a fresh node `z` to the E2 workflow returns `z` and
appends exactly that node. -/
theorem workflow_add_spec_witness :
    ("z" ∉ wfE2.nodeIds) ∧
      (wfE2.add taskF "z" ["a"] true).1 = .ok "z" ∧
      (wfE2.add taskF "z" ["a"] true).2.nodes =
        wfE2.nodes ++ [⟨"z", taskF, ["a"], true⟩] := by
  have hmem : "z" ∉ wfE2.nodeIds := by simp [wfE2, Workflow.nodeIds]
  exact ⟨hmem, (workflow_add_spec wfE2 taskF "z" ["a"] true).2.2 hmem⟩

/-! ## Claim C10: a valid DAG the canvas compiler rejects -/

/-- C10.  `wfJoinBad` (roots `a`, `e`; `b:[a]`; `c:[a,e]`; `d:[b,c]`) has
unique ids and passes `validate_dag`, yet compiling it to a canvas with
target `d` fails: the join `c` must be compiled relative to the prefix `a`,
but the LCA of its dependencies `["a","e"]` is `None`. -/
theorem joinBad_validates_but_compilation_fails :
    wfJoinBad.nodeIds.Nodup ∧ wfJoinBad.validate_dag = .ok () ∧
      (wfJoinBad.to_canvas (some "d")).1 =
        .error (.relJoinNotLca "c" "a" ["a", "e"] none) :=
  ⟨by decide, rfl, rfl⟩

/-! ## Claim C9: compilation and the workflow's state

Compilation of a join populates the `_ancestors_cache` (and `_depth_cache`)
memoization dicts, so it is not literally state-preserving; it does preserve
the node mapping and the name. -/

/-- One `stepThread` iteration preserves `nodes` and `name` whenever the
called operation does. -/
theorem stepThread_preserves {α β : Type}
    (f : Workflow → String → Except WError β × Workflow) (g : α → String → β → α)
    (hf : ∀ w d r w', f w d = (r, w') → w'.nodes = w.nodes ∧ w'.name = w.name)
    (st : Except WError α × Workflow) (dep : String) :
    (stepThread f g st dep).2.nodes = st.2.nodes ∧
    (stepThread f g st dep).2.name = st.2.name := by
  unfold stepThread
  split
  · exact ⟨rfl, rfl⟩
  · split
    · rename_i heq
      exact hf _ _ _ _ heq
    · rename_i heq
      exact hf _ _ _ _ heq

/-- A `foldl` of `stepThread` preserves `nodes` and `name` whenever the
called operation does. -/
theorem foldl_stepThread_preserves {α β : Type}
    (f : Workflow → String → Except WError β × Workflow) (g : α → String → β → α)
    (hf : ∀ w d r w', f w d = (r, w') → w'.nodes = w.nodes ∧ w'.name = w.name) :
    ∀ (l : List String) (st : Except WError α × Workflow)
      (r : Except WError α) (w' : Workflow),
      l.foldl (stepThread f g) st = (r, w') →
      w'.nodes = st.2.nodes ∧ w'.name = st.2.name := by
  intro l
  induction l with
  | nil =>
    intro st r w' h
    rw [List.foldl_nil] at h
    subst h
    exact ⟨rfl, rfl⟩
  | cons d rest ih =>
    intro st r w' h
    rw [List.foldl_cons] at h
    obtain ⟨h1, h2⟩ := ih _ r w' h
    obtain ⟨h3, h4⟩ := stepThread_preserves f g hf st d
    exact ⟨h1.trans h3, h2.trans h4⟩

theorem ancestors_preserves_graph :
    ∀ (fuel : Nat) (w : Workflow) (nid : String) (r : Except WError (List String))
      (w' : Workflow), Workflow.ancestors w fuel nid = (r, w') →
      w'.nodes = w.nodes ∧ w'.name = w.name := by
  intro fuel
  induction fuel with
  | zero =>
    intro w nid r w' h
    cases h
    exact ⟨rfl, rfl⟩
  | succ fuel ih =>
    intro w nid r w' h
    unfold Workflow.ancestors at h
    split at h
    · cases h; exact ⟨rfl, rfl⟩
    · split at h
      · cases h; exact ⟨rfl, rfl⟩
      · split at h
        · cases h
          rename_i heq
          exact foldl_stepThread_preserves _ _ ih _ _ _ _ heq
        · cases h
          rename_i heq
          exact foldl_stepThread_preserves _ _ ih _ _ _ _ heq

theorem depth_preserves_graph :
    ∀ (fuel : Nat) (w : Workflow) (nid : String) (r : Except WError Nat)
      (w' : Workflow), Workflow.depth w fuel nid = (r, w') →
      w'.nodes = w.nodes ∧ w'.name = w.name := by
  intro fuel
  induction fuel with
  | zero =>
    intro w nid r w' h
    cases h
    exact ⟨rfl, rfl⟩
  | succ fuel ih =>
    intro w nid r w' h
    unfold Workflow.depth at h
    split at h
    · cases h; exact ⟨rfl, rfl⟩
    · split at h
      · cases h; exact ⟨rfl, rfl⟩
      · split at h
        · cases h; exact ⟨rfl, rfl⟩
        · split at h
          · cases h
            rename_i heq
            exact foldl_stepThread_preserves _ _ ih _ _ _ _ heq
          · cases h
            rename_i heq
            exact foldl_stepThread_preserves _ _ ih _ _ _ _ heq

theorem lcaCommonFold_preserves_graph :
    ∀ (l : List String) (w : Workflow) (fuel : Nat)
      (common : Option (List String)) (r : Except WError (Option (List String)))
      (w' : Workflow), lcaCommonFold w fuel l common = (r, w') →
      w'.nodes = w.nodes ∧ w'.name = w.name := by
  intro l
  induction l with
  | nil =>
    intro w fuel common r w' h
    cases h
    exact ⟨rfl, rfl⟩
  | cons nid rest ih =>
    intro w fuel common r w' h
    unfold lcaCommonFold at h
    split at h
    · rename_i e wa heq
      cases h
      exact ancestors_preserves_graph fuel w nid _ _ heq
    · rename_i anc wa heq
      obtain ⟨h1, h2⟩ := ih wa fuel _ r w' h
      obtain ⟨h3, h4⟩ := ancestors_preserves_graph fuel w nid _ _ heq
      exact ⟨h1.trans h3, h2.trans h4⟩

theorem lcaMaxByDepth_preserves_graph :
    ∀ (l : List String) (w : Workflow) (fuel : Nat) (best : String × Nat)
      (r : Except WError String) (w' : Workflow),
      lcaMaxByDepth w fuel l best = (r, w') →
      w'.nodes = w.nodes ∧ w'.name = w.name := by
  intro l
  induction l with
  | nil =>
    intro w fuel best r w' h
    cases h
    exact ⟨rfl, rfl⟩
  | cons nid rest ih =>
    intro w fuel best r w' h
    unfold lcaMaxByDepth at h
    cases hres : Workflow.depth w fuel nid with
    | mk rd wd =>
      rw [hres] at h
      cases rd with
      | error e =>
        have h' : ((.error e : Except WError String), wd) = (r, w') := h
        cases h'
        exact depth_preserves_graph fuel w nid _ _ hres
      | ok d =>
        have h' : lcaMaxByDepth wd fuel rest
            (if best.2 < d then (nid, d) else best) = (r, w') := h
        obtain ⟨h1, h2⟩ := ih wd fuel _ r w' h'
        obtain ⟨h3, h4⟩ := depth_preserves_graph fuel w nid _ _ hres
        exact ⟨h1.trans h3, h2.trans h4⟩

theorem lca_preserves_graph (w : Workflow) (fuel : Nat) (node_ids : List String)
    (r : Except WError (Option String)) (w' : Workflow)
    (h : Workflow.lca w fuel node_ids = (r, w')) :
    w'.nodes = w.nodes ∧ w'.name = w.name := by
  unfold Workflow.lca at h
  by_cases hids : node_ids = []
  · rw [if_pos hids] at h
    cases h
    exact ⟨rfl, rfl⟩
  · rw [if_neg hids] at h
    split at h
    · rename_i e wc heq
      cases h
      exact lcaCommonFold_preserves_graph node_ids w fuel none _ _ heq
    · rename_i common wc heq
      have hcf := lcaCommonFold_preserves_graph node_ids w fuel none _ _ heq
      split at h
      · cases h
        exact hcf
      · rename_i c0 cs hcom
        split at h
        · rename_i e wd heq2
          cases h
          have hd := depth_preserves_graph fuel wc c0 _ _ heq2
          exact ⟨hd.1.trans hcf.1, hd.2.trans hcf.2⟩
        · rename_i d0 wd heq2
          have hd := depth_preserves_graph fuel wc c0 _ _ heq2
          split at h
          · rename_i e w3 heq3
            cases h
            have hm := lcaMaxByDepth_preserves_graph cs wd fuel (c0, d0) _ _ heq3
            exact ⟨(hm.1.trans hd.1).trans hcf.1, (hm.2.trans hd.2).trans hcf.2⟩
          · rename_i m w3 heq3
            cases h
            have hm := lcaMaxByDepth_preserves_graph cs wd fuel (c0, d0) _ _ heq3
            exact ⟨(hm.1.trans hd.1).trans hcf.1, (hm.2.trans hd.2).trans hcf.2⟩

theorem compile_rel_preserves_graph :
    ∀ (fuel : Nat) (w : Workflow) (pid nid : String)
      (r : Except WError Canvas) (w' : Workflow),
      Workflow.compile_rel w fuel pid nid = (r, w') →
      w'.nodes = w.nodes ∧ w'.name = w.name := by
  intro fuel
  induction fuel with
  | zero =>
    intro w pid nid r w' h
    cases h
    exact ⟨rfl, rfl⟩
  | succ fuel ih =>
    intro w pid nid r w' h
    unfold Workflow.compile_rel at h
    split at h
    · cases h; exact ⟨rfl, rfl⟩
    · split at h
      · cases h; exact ⟨rfl, rfl⟩
      · dsimp only [] at h
        split at h
        · cases h; exact ⟨rfl, rfl⟩
        · split at h
          · split at h
            · rename_i e wa heq
              cases h
              exact ih _ _ _ _ _ heq
            · rename_i c wa heq
              cases h
              exact ih _ _ _ _ _ heq
          · split at h
            · rename_i e wa heq
              cases h
              exact lca_preserves_graph _ _ _ _ _ heq
            · rename_i lca? wa heq
              have hl := lca_preserves_graph _ _ _ _ _ heq
              split at h
              · cases h
                exact hl
              · split at h
                · rename_i e wb heq2
                  cases h
                  obtain ⟨h1, h2⟩ :=
                    foldl_stepThread_preserves _ _ (fun w d r w' hh => ih w pid d r w' hh)
                      _ _ _ _ heq2
                  exact ⟨h1.trans hl.1, h2.trans hl.2⟩
                · rename_i hhdr wb heq2
                  cases h
                  obtain ⟨h1, h2⟩ :=
                    foldl_stepThread_preserves _ _ (fun w d r w' hh => ih w pid d r w' hh)
                      _ _ _ _ heq2
                  exact ⟨h1.trans hl.1, h2.trans hl.2⟩

theorem compile_abs_preserves_graph :
    ∀ (fuel : Nat) (w : Workflow) (nid : String)
      (r : Except WError Canvas) (w' : Workflow),
      Workflow.compile_abs w fuel nid = (r, w') →
      w'.nodes = w.nodes ∧ w'.name = w.name := by
  intro fuel
  induction fuel with
  | zero =>
    intro w nid r w' h
    cases h
    exact ⟨rfl, rfl⟩
  | succ fuel ih =>
    intro w nid r w' h
    unfold Workflow.compile_abs at h
    split at h
    · cases h; exact ⟨rfl, rfl⟩
    · dsimp only [] at h
      split at h
      · cases h; exact ⟨rfl, rfl⟩
      · split at h
        · split at h
          · rename_i e wa heq
            cases h
            exact ih _ _ _ _ heq
          · rename_i c wa heq
            cases h
            exact ih _ _ _ _ heq
        · split at h
          · rename_i e wa heq
            cases h
            exact lca_preserves_graph _ _ _ _ _ heq
          · rename_i wa heq
            have hl := lca_preserves_graph _ _ _ _ _ heq
            split at h
            · rename_i e wb heq2
              cases h
              obtain ⟨h1, h2⟩ :=
                foldl_stepThread_preserves _ _ (fun w d r w' hh => ih w d r w' hh)
                  _ _ _ _ heq2
              exact ⟨h1.trans hl.1, h2.trans hl.2⟩
            · rename_i hdr wb heq2
              cases h
              obtain ⟨h1, h2⟩ :=
                foldl_stepThread_preserves _ _ (fun w d r w' hh => ih w d r w' hh)
                  _ _ _ _ heq2
              exact ⟨h1.trans hl.1, h2.trans hl.2⟩
          · rename_i lca_id wa heq
            have hl := lca_preserves_graph _ _ _ _ _ heq
            split at h
            · rename_i e wb heq2
              cases h
              have hp := ih _ _ _ _ heq2
              exact ⟨hp.1.trans hl.1, hp.2.trans hl.2⟩
            · rename_i pfx wb heq2
              have hp := ih _ _ _ _ heq2
              split at h
              · rename_i e wc heq3
                cases h
                obtain ⟨h1, h2⟩ :=
                  foldl_stepThread_preserves _ _
                    (fun w d r w' hh => compile_rel_preserves_graph fuel w lca_id d r w' hh)
                    _ _ _ _ heq3
                exact ⟨(h1.trans hp.1).trans hl.1, (h2.trans hp.2).trans hl.2⟩
              · rename_i hdr wc heq3
                cases h
                obtain ⟨h1, h2⟩ :=
                  foldl_stepThread_preserves _ _
                    (fun w d r w' hh => compile_rel_preserves_graph fuel w lca_id d r w' hh)
                    _ _ _ _ heq3
                exact ⟨(h1.trans hp.1).trans hl.1, (h2.trans hp.2).trans hl.2⟩

/-- C9 amended: compilation never changes the node mapping or the name of
the workflow, on success and on failure alike (only the two memoization
caches may gain entries). -/
theorem to_canvas_preserves_graph (w : Workflow) (target : Option String)
    (r : Except WError Canvas) (w' : Workflow)
    (h : w.to_canvas target = (r, w')) :
    w'.nodes = w.nodes ∧ w'.name = w.name := by
  unfold Workflow.to_canvas at h
  split at h
  · cases h; exact ⟨rfl, rfl⟩
  · dsimp only [] at h
    split at h
    · cases h; exact ⟨rfl, rfl⟩
    · split at h
      · cases h; exact ⟨rfl, rfl⟩
      · exact compile_abs_preserves_graph _ _ _ _ _ h

theorem to_canvas_preserves_nodes (w : Workflow) (target : Option String) :
    (w.to_canvas target).2.nodes = w.nodes ∧ (w.to_canvas target).2.name = w.name := by
  cases hres : w.to_canvas target with
  | mk r w' =>
    exact to_canvas_preserves_graph w target r w' hres

/-- C9 counterexample: compiling the diamond workflow succeeds, but the
returned object differs from the input in its `_ancestors_cache` field —
the `_lca` machinery memoizes ancestor sets during compilation, so
compilation is not literally state-preserving. -/
theorem to_canvas_mutates_ancestors_cache :
    (∃ c, (wfDiamond.to_canvas none).1 = .ok c) ∧
      (wfDiamond.to_canvas none).2.ancestors_cache ≠ wfDiamond.ancestors_cache := by
  constructor
  · exact ⟨(Workflow.compile_abs wfDiamond 5 "d").1.toOption.getD identitySignature,
      by rfl⟩
  · intro h
    rw [show (wfDiamond.to_canvas none).2.ancestors_cache =
        [("a", []), ("b", ["a"]), ("c", ["a"])] from rfl,
      show wfDiamond.ancestors_cache = [] from rfl] at h
    cases h

/-! ## Kahn's algorithm: correctness of `validate_dag`'s cycle detection -/

theorem find?_nodeId_of_mem :
    ∀ (l : List WorkflowNode), (l.map WorkflowNode.node_id).Nodup →
      ∀ n ∈ l, l.find? (fun m => m.node_id = n.node_id) = some n := by
  intro l
  induction l with
  | nil => intro _ n hn; cases hn
  | cons m rest ih =>
    intro hnodup n hn
    rcases List.mem_cons.mp hn with h | h
    · subst h
      rw [List.find?_cons_of_pos _ (by simp)]
    · have hmem : n.node_id ∈ rest.map WorkflowNode.node_id :=
        List.mem_map.mpr ⟨n, h, rfl⟩
      rw [List.map_cons, List.nodup_cons] at hnodup
      have hne : ¬ (m.node_id = n.node_id) := fun he => hnodup.1 (he ▸ hmem)
      rw [List.find?_cons_of_neg _ (by simpa using hne)]
      exact ih hnodup.2 n h

theorem node?_of_mem {w : Workflow} (hnodup : w.nodeIds.Nodup) :
    ∀ n ∈ w.nodes, w.node? n.node_id = some n := by
  intro n hn
  exact find?_nodeId_of_mem w.nodes hnodup n hn

theorem depsOf_of_mem {w : Workflow} (hnodup : w.nodeIds.Nodup)
    {n : WorkflowNode} (hn : n ∈ w.nodes) :
    w.depsOf n.node_id = n.depends_on := by
  unfold Workflow.depsOf
  rw [node?_of_mem hnodup n hn]
  rfl

theorem depsOf_of_not_mem {w : Workflow} {x : String} (hx : x ∉ w.nodeIds) :
    w.depsOf x = [] := by
  unfold Workflow.depsOf Workflow.node?
  cases hf : w.nodes.find? (fun n => n.node_id = x) with
  | none => rfl
  | some n =>
    exfalso
    have hmem := List.mem_of_find?_eq_some hf
    have hp := List.find?_some hf
    simp only [decide_eq_true_eq] at hp
    exact hx (hp ▸ List.mem_map.mpr ⟨n, hmem, rfl⟩)

/-- Closed form of the inner `children[dep].append(n.node_id)` loop. -/
theorem childrenDepsFold_apply (nid : String) :
    ∀ (deps : List String) (ch : String → List String) (x : String),
      (deps.foldl (fun c dep => fun y => if y = dep then c y ++ [nid] else c y) ch) x
        = ch x ++ List.replicate (deps.count x) nid := by
  intro deps
  induction deps with
  | nil => intro ch x; simp
  | cons d rest ih =>
    intro ch x
    rw [List.foldl_cons, ih]
    by_cases hx : x = d
    · subst hx
      simp [List.count_cons, List.replicate_add, List.replicate_succ]
    · simp [hx, List.count_cons, Ne.symm hx]

/-- Closed form of `kahnChildren`: the children of `x` are, node by node in
insertion order, that node's id repeated once per occurrence of `x` in its
`depends_on`. -/
theorem kahnChildren_apply (w : Workflow) (x : String) :
    w.kahnChildren x =
      (w.nodes.map
        (fun n => List.replicate (n.depends_on.count x) n.node_id)).flatten := by
  unfold Workflow.kahnChildren
  have hgen : ∀ (nodes : List WorkflowNode) (ch : String → List String),
      (nodes.foldl
        (fun ch n =>
          n.depends_on.foldl
            (fun c dep => fun y => if y = dep then c y ++ [n.node_id] else c y) ch)
        ch) x
      = ch x ++ (nodes.map
          (fun n => List.replicate (n.depends_on.count x) n.node_id)).flatten := by
    intro nodes
    induction nodes with
    | nil => intro ch; simp
    | cons n rest ih =>
      intro ch
      rw [List.foldl_cons, ih, childrenDepsFold_apply n.node_id, List.map_cons,
        List.flatten_cons, List.append_assoc]
  rw [hgen w.nodes (fun _ => [])]
  simp

theorem mem_kahnChildren (w : Workflow) (x y : String) :
    y ∈ w.kahnChildren x ↔ ∃ n ∈ w.nodes, y = n.node_id ∧ x ∈ n.depends_on := by
  rw [kahnChildren_apply, List.mem_flatten]
  constructor
  · rintro ⟨l, hl, hy⟩
    obtain ⟨n, hn, rfl⟩ := List.mem_map.mp hl
    rw [List.mem_replicate] at hy
    refine ⟨n, hn, hy.2, ?_⟩
    have := Nat.pos_of_ne_zero hy.1
    exact List.count_pos_iff_mem.mp this
  · rintro ⟨n, hn, rfl, hx⟩
    refine ⟨List.replicate (n.depends_on.count x) n.node_id,
      List.mem_map.mpr ⟨n, hn, rfl⟩, ?_⟩
    rw [List.mem_replicate]
    exact ⟨Nat.pos_iff_ne_zero.mp (List.count_pos_iff_mem.mpr hx), rfl⟩

theorem kahnChildren_subset (w : Workflow) (x : String) :
    ∀ y ∈ w.kahnChildren x, y ∈ w.nodeIds := by
  intro y hy
  obtain ⟨n, hn, rfl, -⟩ := (mem_kahnChildren w x y).mp hy
  exact List.mem_map.mpr ⟨n, hn, rfl⟩

theorem count_flatten_eq_zero_of_not_mem (y : String) :
    ∀ (nodes : List WorkflowNode) (cnt : WorkflowNode → Nat),
      y ∉ nodes.map WorkflowNode.node_id →
      ((nodes.map (fun n => List.replicate (cnt n) n.node_id)).flatten).count y = 0 := by
  intro nodes
  induction nodes with
  | nil => intro cnt _; rfl
  | cons n rest ih =>
    intro cnt hy
    rw [List.map_cons, List.mem_cons] at hy
    push_neg at hy
    rw [List.map_cons, List.flatten_cons, List.count_append,
      List.count_replicate, if_neg (by simpa using fun h => hy.1 h.symm),
      ih cnt hy.2]

theorem count_flatten_replicate_of_mem (x : String) :
    ∀ (nodes : List WorkflowNode),
      (nodes.map WorkflowNode.node_id).Nodup →
      ∀ n ∈ nodes,
      ((nodes.map (fun n => List.replicate (n.depends_on.count x) n.node_id)).flatten).count
          n.node_id = n.depends_on.count x := by
  intro nodes
  induction nodes with
  | nil => intro _ n hn; cases hn
  | cons m rest ih =>
    intro hnodup n hn
    rw [List.map_cons, List.nodup_cons] at hnodup
    rw [List.map_cons, List.flatten_cons, List.count_append]
    rcases List.mem_cons.mp hn with h | h
    · subst h
      rw [List.count_replicate, if_pos (by simp),
        count_flatten_eq_zero_of_not_mem _ rest _ hnodup.1, add_zero]
    · have hyrest : n.node_id ∈ rest.map WorkflowNode.node_id :=
        List.mem_map.mpr ⟨n, h, rfl⟩
      have hne : ¬ (m.node_id = n.node_id) := fun he => hnodup.1 (he ▸ hyrest)
      rw [List.count_replicate, if_neg (by simpa using hne), ih hnodup.2 n h,
        zero_add]

/-- With unique ids, the multiplicity of `n.node_id` among `children[x]`
equals the multiplicity of `x` among `n.depends_on`. -/
theorem count_kahnChildren {w : Workflow} (hnodup : w.nodeIds.Nodup)
    {n : WorkflowNode} (hn : n ∈ w.nodes) (x : String) :
    (w.kahnChildren x).count n.node_id = n.depends_on.count x := by
  rw [kahnChildren_apply]
  exact count_flatten_replicate_of_mem x w.nodes hnodup n hn

/-- Closed form of the `indeg[n.node_id] += len(n.depends_on)` construction. -/
theorem kahnIndeg0_apply (w : Workflow) (x : String) :
    w.kahnIndeg0 x =
      ((w.nodes.map (fun n =>
        if x = n.node_id then (n.depends_on.length : Int) else 0)).sum) := by
  unfold Workflow.kahnIndeg0
  have hgen : ∀ (nodes : List WorkflowNode) (f : String → Int),
      (nodes.foldl
        (fun ind n => fun y =>
          if y = n.node_id then ind y + (n.depends_on.length : Int) else ind y) f) x
      = f x + (nodes.map (fun n =>
          if x = n.node_id then (n.depends_on.length : Int) else 0)).sum := by
    intro nodes
    induction nodes with
    | nil => intro f; simp
    | cons n rest ih =>
      intro f
      rw [List.foldl_cons, ih, List.map_cons, List.sum_cons]
      by_cases hx : x = n.node_id
      · rw [if_pos hx, if_pos hx]
        omega
      · rw [if_neg hx, if_neg hx]
        omega
  rw [hgen w.nodes (fun _ => 0)]
  simp

theorem sum_if_zero_of_not_mem (y : String) (f : WorkflowNode → Int) :
    ∀ (nodes : List WorkflowNode),
      y ∉ nodes.map WorkflowNode.node_id →
      (nodes.map (fun n => if y = n.node_id then f n else 0)).sum = 0 := by
  intro nodes
  induction nodes with
  | nil => intro _; rfl
  | cons m rest ih =>
    intro hy
    rw [List.map_cons, List.mem_cons] at hy
    push_neg at hy
    rw [List.map_cons, List.sum_cons, if_neg hy.1, ih hy.2, zero_add]

theorem sum_if_single_of_mem :
    ∀ (nodes : List WorkflowNode),
      (nodes.map WorkflowNode.node_id).Nodup →
      ∀ n ∈ nodes,
      (nodes.map (fun m =>
        if n.node_id = m.node_id then (m.depends_on.length : Int) else 0)).sum
        = (n.depends_on.length : Int) := by
  intro nodes
  induction nodes with
  | nil => intro _ n hn; cases hn
  | cons m rest ih =>
    intro hnodup n hn
    rw [List.map_cons, List.nodup_cons] at hnodup
    rw [List.map_cons, List.sum_cons]
    rcases List.mem_cons.mp hn with h | h
    · subst h
      rw [if_pos rfl, sum_if_zero_of_not_mem _ _ rest hnodup.1, add_zero]
    · have hyrest : n.node_id ∈ rest.map WorkflowNode.node_id :=
        List.mem_map.mpr ⟨n, h, rfl⟩
      have hne : ¬ (n.node_id = m.node_id) :=
        fun he => hnodup.1 (he ▸ hyrest)
      rw [if_neg hne, ih hnodup.2 n h, zero_add]

theorem kahnIndeg0_of_mem {w : Workflow} (hnodup : w.nodeIds.Nodup)
    {n : WorkflowNode} (hn : n ∈ w.nodes) :
    w.kahnIndeg0 n.node_id = (n.depends_on.length : Int) := by
  rw [kahnIndeg0_apply]
  exact sum_if_single_of_mem w.nodes hnodup n hn

theorem kahnIndeg0_of_not_mem {w : Workflow} {x : String} (hx : x ∉ w.nodeIds) :
    w.kahnIndeg0 x = 0 := by
  rw [kahnIndeg0_apply]
  exact sum_if_zero_of_not_mem x _ w.nodes hx

/-! ### Abstract graph lemmas -/

/-- A non-empty finite set of nodes each of which has a parent inside the set
contains a cycle (pigeonhole via well-foundedness on a finite type). -/
theorem cycle_of_all_have_parent (w : Workflow) (U : List String)
    (hne : U ≠ []) (hpar : ∀ u ∈ U, ∃ p ∈ U, w.edge p u) :
    ∃ n, Relation.TransGen w.edge n n := by
  by_contra hcyc
  push_neg at hcyc
  haveI hfin : Finite {x : String // x ∈ U} := by
    have := (List.finite_toSet U).to_subtype
    exact this
  let r : {x : String // x ∈ U} → {x : String // x ∈ U} → Prop :=
    fun a b => Relation.TransGen w.edge a.val b.val
  haveI : IsTrans {x : String // x ∈ U} r := ⟨fun _ _ _ hab hbc => hab.trans hbc⟩
  haveI : IsIrrefl {x : String // x ∈ U} r := ⟨fun a ha => hcyc a.val ha⟩
  have hwf : WellFounded r := Finite.wellFounded_of_trans_of_irrefl r
  obtain ⟨u0, hu0⟩ := List.exists_mem_of_ne_nil U hne
  obtain ⟨m, -, hmin⟩ := hwf.has_min Set.univ ⟨⟨u0, hu0⟩, trivial⟩
  obtain ⟨p, hp, hedge⟩ := hpar m.val m.property
  exact hmin ⟨p, hp⟩ trivial (Relation.TransGen.single hedge)

theorem edge_target_mem {w : Workflow} {p c : String} (h : w.edge p c) :
    c ∈ w.nodeIds := h.1

theorem indexOf_lt_of_edge {w : Workflow} {l : List String}
    (hnodup : l.Nodup) (htopo : w.IsTopo l) {p c : String}
    (hedge : w.edge p c) (hc : c ∈ l) :
    p ∈ l ∧ l.indexOf p < l.indexOf c := by
  obtain ⟨l₁, l₂, hdec⟩ := List.append_of_mem hc
  have hp₁ : p ∈ l₁ := htopo l₁ c l₂ hdec p hedge.2
  have hcnot : c ∉ l₁ := by
    rw [hdec, List.nodup_append] at hnodup
    exact fun hmem => hnodup.2.2 hmem (by simp)
  constructor
  · rw [hdec]; exact List.mem_append.mpr (Or.inl hp₁)
  · rw [hdec, List.indexOf_append_of_mem hp₁,
      List.indexOf_append_of_not_mem hcnot, List.indexOf_cons_self]
    calc l₁.indexOf p < l₁.length := List.indexOf_lt_length.mpr hp₁
    _ ≤ l₁.length + 0 := by omega

theorem indexOf_lt_of_transGen {w : Workflow} {l : List String}
    (hnodup : l.Nodup) (htopo : w.IsTopo l)
    (hall : ∀ n ∈ w.nodeIds, n ∈ l) {a b : String}
    (htg : Relation.TransGen w.edge a b) :
    b ∈ l → a ∈ l ∧ l.indexOf a < l.indexOf b := by
  induction htg with
  | single h => exact fun hb => indexOf_lt_of_edge hnodup htopo h hb
  | tail hab hbc ih =>
    intro hb
    obtain ⟨hb', hlt⟩ := indexOf_lt_of_edge hnodup htopo hbc hb
    obtain ⟨ha, hlt'⟩ := ih hb'
    exact ⟨ha, hlt'.trans hlt⟩

/-- A duplicate-free topologically sorted listing of all nodes certifies
acyclicity. -/
theorem acyclic_of_topo (w : Workflow) (l : List String)
    (hnodup : l.Nodup) (htopo : w.IsTopo l)
    (hall : ∀ n ∈ w.nodeIds, n ∈ l) : w.Acyclic := by
  intro n htg
  have hn : n ∈ w.nodeIds := by
    cases htg with
    | single h => exact edge_target_mem h
    | tail _ h => exact edge_target_mem h
  obtain ⟨-, hlt⟩ := indexOf_lt_of_transGen hnodup htopo hall htg (hall n hn)
  omega

/-! ### Counting lemmas for the in-degree bookkeeping -/

theorem countP_notMem_append_singleton (deps popped : List String) (nid : String)
    (hnid : nid ∉ popped) :
    (deps.countP (fun d => decide (d ∉ popped ++ [nid])) : Int) + deps.count nid
      = (deps.countP (fun d => decide (d ∉ popped)) : Int) := by
  induction deps with
  | nil => simp
  | cons d rest ih =>
    by_cases hd : d = nid
    · subst hd
      have h1 : (decide (d ∉ popped ++ [d])) = false := by simp
      have h2 : (decide (d ∉ popped)) = true := by simpa using hnid
      rw [List.countP_cons, List.countP_cons, List.count_cons, h1, h2]
      simp only [beq_self_eq_true, if_true, if_false]
      push_cast
      omega
    · have h1 : (decide (d ∉ popped ++ [nid])) = decide (d ∉ popped) := by
        by_cases hdp : d ∈ popped <;> simp [hdp, hd]
      have h2 : (d == nid) = false := by simpa using hd
      rw [List.countP_cons, List.countP_cons, List.count_cons, h1, h2]
      by_cases hdp : d ∈ popped
      · have h3 : (decide (d ∉ popped)) = false := by simpa using hdp
        rw [h3]
        push_cast
        omega
      · have h3 : (decide (d ∉ popped)) = true := by simpa using hdp
        rw [h3]
        push_cast
        omega

theorem countP_notMem_nil (deps : List String) :
    deps.countP (fun d => decide (d ∉ ([] : List String))) = deps.length := by
  rw [List.countP_eq_length]
  intro a _
  simp

theorem countP_notMem_eq_zero_iff (deps popped : List String) :
    deps.countP (fun d => decide (d ∉ popped)) = 0 ↔ ∀ d ∈ deps, d ∈ popped := by
  rw [List.countP_eq_zero]
  constructor
  · intro h d hd
    have := h d hd
    simpa using this
  · intro h d hd
    simpa using h d hd

/-! ### The inner decrement loop (`kahnProcess`) -/

theorem count_cons_self_eq (ch : String) (rest : List String) :
    (ch :: rest).count ch = rest.count ch + 1 := by
  rw [List.count_cons]
  simp

theorem count_cons_ne_eq {ch n : String} (rest : List String) (h : n ≠ ch) :
    (ch :: rest).count n = rest.count n := by
  rw [List.count_cons]
  have : (ch == n) = false := by simpa using fun hh => h hh.symm
  rw [this]
  simp

theorem kahnProcess_spec (w : Workflow) (popped' : List String) :
    ∀ (cs : List String) (indeg : String → Int) (ready : List String),
      (∀ y ∈ cs, y ∈ w.nodeIds) →
      (∀ n ∈ w.nodeIds,
        indeg n = ((w.depsOf n).countP (fun d => decide (d ∉ popped')) : Int)
          + cs.count n) →
      (∀ n ∈ w.nodeIds,
        (n ∈ ready ∨ n ∈ popped') ↔
          ((∀ d ∈ w.depsOf n, d ∈ popped') ∧ cs.count n = 0)) →
      (ready ++ popped').Nodup →
      ready ⊆ w.nodeIds →
      (∀ x, x ∉ w.nodeIds → indeg x = 0) →
      (∀ n ∈ w.nodeIds,
        (kahnProcess cs indeg ready).1 n
          = ((w.depsOf n).countP (fun d => decide (d ∉ popped')) : Int))
      ∧ (∀ n ∈ w.nodeIds,
        (n ∈ (kahnProcess cs indeg ready).2 ∨ n ∈ popped') ↔
          ∀ d ∈ w.depsOf n, d ∈ popped')
      ∧ ((kahnProcess cs indeg ready).2 ++ popped').Nodup
      ∧ (kahnProcess cs indeg ready).2 ⊆ w.nodeIds
      ∧ (∀ x, x ∉ w.nodeIds → (kahnProcess cs indeg ready).1 x = 0) := by
  intro cs
  induction cs with
  | nil =>
    intro indeg ready hcs ha hb hc hd he
    simp only [kahnProcess]
    refine ⟨?_, ?_, hc, hd, he⟩
    · intro n hn
      have := ha n hn
      simpa using this
    · intro n hn
      rw [hb n hn]
      simp
  | cons ch rest ih =>
    intro indeg ready hcs ha hb hc hd he
    have hch : ch ∈ w.nodeIds := hcs ch (by simp)
    rw [kahnProcess]
    set indeg₁ : String → Int := fun x => if x = ch then indeg x - 1 else indeg x
      with hindeg₁
    -- in-degree bookkeeping after the decrement
    have hA1 : ∀ n ∈ w.nodeIds,
        indeg₁ n = ((w.depsOf n).countP (fun d => decide (d ∉ popped')) : Int)
          + rest.count n := by
      intro n hn
      by_cases hnch : n = ch
      · subst hnch
        rw [hindeg₁]
        simp only [if_pos rfl]
        rw [ha n hn, count_cons_self_eq]
        push_cast
        omega
      · rw [hindeg₁]
        simp only [if_neg hnch]
        rw [ha n hn, count_cons_ne_eq rest hnch]
    have hE1 : ∀ x, x ∉ w.nodeIds → indeg₁ x = 0 := by
      intro x hx
      rw [hindeg₁]
      have hne : ¬ (x = ch) := fun h => hx (h ▸ hch)
      simp only [if_neg hne]
      exact he x hx
    have hCS1 : ∀ y ∈ rest, y ∈ w.nodeIds := fun y hy => hcs y (by simp [hy])
    by_cases hzero : indeg₁ ch = 0
    · -- the decrement reaches zero: ch is pushed onto ready
      rw [if_pos hzero]
      have hsplit : ((w.depsOf ch).countP (fun d => decide (d ∉ popped')) : Int)
          + rest.count ch = 0 := by
        rw [← hA1 ch hch]
        exact hzero
      have hdepsub : ∀ d ∈ w.depsOf ch, d ∈ popped' := by
        rw [← countP_notMem_eq_zero_iff]
        omega
      have hrest0 : rest.count ch = 0 := by
        have hnn : (0 : Int) ≤ ((w.depsOf ch).countP
            (fun d => decide (d ∉ popped')) : Int) := by positivity
        omega
      have hchnotold : ch ∉ ready ++ popped' := by
        rw [List.mem_append]
        rintro (h | h) <;>
        · have := (hb ch hch).mp (by tauto)
          rw [count_cons_self_eq] at this
          omega
      refine ih indeg₁ (ch :: ready) hCS1 ?_ ?_ ?_ ?_ hE1
      · exact hA1
      · intro n hn
        by_cases hnch : n = ch
        · subst hnch
          constructor
          · intro _
            exact ⟨hdepsub, hrest0⟩
          · intro _
            left; simp
        · rw [List.mem_cons]
          have hiff := hb n hn
          rw [count_cons_ne_eq rest hnch] at hiff
          rw [← hiff]
          constructor
          · rintro (((h | h) | h))
            · exact absurd h hnch
            · exact Or.inl h
            · exact Or.inr h
          · rintro (h | h)
            · exact Or.inl (Or.inr h)
            · exact Or.inr h
      · rw [List.cons_append, List.nodup_cons]
        exact ⟨hchnotold, hc⟩
      · intro y hy
        rcases List.mem_cons.mp hy with h | h
        · exact h ▸ hch
        · exact hd h
    · -- the decrement does not reach zero: ready unchanged
      rw [if_neg hzero]
      refine ih indeg₁ ready hCS1 hA1 ?_ hc hd hE1
      intro n hn
      by_cases hnch : n = ch
      · subst hnch
        have hiff := hb n hn
        rw [count_cons_self_eq] at hiff
        constructor
        · intro h
          have := hiff.mp h
          omega
        · rintro ⟨hds, hrc⟩
          exfalso
          apply hzero
          rw [hA1 n hn, hrc]
          have h0 := (countP_notMem_eq_zero_iff (w.depsOf n) popped').mpr hds
          rw [h0]
          simp
      · have hiff := hb n hn
        rw [count_cons_ne_eq rest hnch] at hiff
        exact hiff

/-! ### The outer Kahn loop -/

theorem nodup_subset_length_le {l L : List String} (hl : l.Nodup)
    (hsub : l ⊆ L) : l.length ≤ L.length := by
  calc l.length = l.toFinset.card := (List.toFinset_card_of_nodup hl).symm
  _ ≤ L.toFinset.card := Finset.card_le_card (by
      intro a ha
      rw [List.mem_toFinset] at ha ⊢
      exact hsub ha)
  _ ≤ L.length := L.toFinset_card_le

theorem mem_of_nodup_subset_length_eq {l L : List String} (hl : l.Nodup)
    (hL : L.Nodup) (hsub : l ⊆ L) (hlen : L.length ≤ l.length) :
    ∀ a ∈ L, a ∈ l := by
  have hfsub : l.toFinset ⊆ L.toFinset := by
    intro a ha
    rw [List.mem_toFinset] at ha ⊢
    exact hsub ha
  have hcard : L.toFinset.card ≤ l.toFinset.card := by
    rw [List.toFinset_card_of_nodup hl, List.toFinset_card_of_nodup hL]
    exact hlen
  have := Finset.eq_of_subset_of_card_le hfsub hcard
  intro a ha
  rw [← List.mem_toFinset, this, List.mem_toFinset]
  exact ha

theorem depsOf_subset_of_present {w : Workflow} (hnodup : w.nodeIds.Nodup)
    (hpres : w.DepsPresent) :
    ∀ n ∈ w.nodeIds, ∀ d ∈ w.depsOf n, d ∈ w.nodeIds := by
  intro n hn d hd
  obtain ⟨node, hnode, rfl⟩ := List.mem_map.mp hn
  rw [depsOf_of_mem hnodup hnode] at hd
  exact hpres node hnode d hd

theorem not_self_depsOf {w : Workflow} (hnodup : w.nodeIds.Nodup)
    (hself : w.NoSelfDep) :
    ∀ n ∈ w.nodeIds, n ∉ w.depsOf n := by
  intro n hn hd
  obtain ⟨node, hnode, rfl⟩ := List.mem_map.mp hn
  rw [depsOf_of_mem hnodup hnode] at hd
  exact hself node hnode hd

theorem count_kahnChildren_depsOf {w : Workflow} (hnodup : w.nodeIds.Nodup)
    {n : String} (hn : n ∈ w.nodeIds) (x : String) :
    (w.kahnChildren x).count n = (w.depsOf n).count x := by
  obtain ⟨node, hnode, rfl⟩ := List.mem_map.mp hn
  rw [depsOf_of_mem hnodup hnode]
  exact count_kahnChildren hnodup hnode x

theorem isTopo_append_singleton {w : Workflow} {l : List String} {x : String}
    (htopo : w.IsTopo l) (hx : ∀ d ∈ w.depsOf x, d ∈ l) :
    w.IsTopo (l ++ [x]) := by
  intro l₁ n l₂ heq d hd
  rcases l₂.eq_nil_or_concat with h2 | ⟨l₂', a, rfl⟩
  · subst h2
    obtain ⟨h3, h4⟩ := List.append_inj' heq rfl
    obtain ⟨h5, -⟩ := List.cons.inj h4
    subst h3 h5
    exact hx d hd
  · rw [List.concat_eq_append, ← List.cons_append, ← List.append_assoc] at heq
    obtain ⟨h3, -⟩ := List.append_inj' heq rfl
    exact htopo l₁ n l₂' h3 d hd

theorem kahnLoop_spec {w : Workflow} (hnodup : w.nodeIds.Nodup)
    (hpres : w.DepsPresent) (hself : w.NoSelfDep) :
    ∀ (fuel : Nat) (indeg : String → Int) (ready popped : List String),
      KahnInvariant w indeg ready popped →
      w.nodeIds.length + 1 - popped.length ≤ fuel →
      ∃ indeg' popped',
        kahnLoop w.kahnChildren fuel indeg ready popped = (indeg', [], popped')
        ∧ KahnInvariant w indeg' [] popped' := by
  intro fuel
  induction fuel with
  | zero =>
    intro indeg ready popped hinv hfuel
    obtain ⟨-, -, hc, -, hpop, -, -⟩ := hinv
    exfalso
    have hpnodup : popped.Nodup := (List.nodup_append.mp hc).2.1
    have := nodup_subset_length_le hpnodup hpop
    omega
  | succ fuel ih =>
    intro indeg ready popped hinv hfuel
    obtain ⟨ha, hb, hc, hrdy, hpop, he, htopo⟩ := hinv
    cases ready with
    | nil =>
      refine ⟨indeg, popped, rfl, ha, ?_, hc, hrdy, hpop, he, htopo⟩
      intro n hn
      have := hb n hn
      simpa using this
    | cons nid rest =>
      have hnid : nid ∈ w.nodeIds := hrdy (by simp)
      have hnidready : nid ∈ nid :: rest ∨ nid ∈ popped := Or.inl (by simp)
      have hdepsnid : ∀ d ∈ w.depsOf nid, d ∈ popped := (hb nid hnid).mp hnidready
      have hnodupc : (nid :: rest ++ popped).Nodup := hc
      rw [List.cons_append, List.nodup_cons] at hnodupc
      have hnidrest : nid ∉ rest := fun h => hnodupc.1 (List.mem_append.mpr (Or.inl h))
      have hnidpop : nid ∉ popped := fun h => hnodupc.1 (List.mem_append.mpr (Or.inr h))
      have hnoself : nid ∉ w.depsOf nid := not_self_depsOf hnodup hself nid hnid
      -- the state after popping nid and decrementing its children
      have hproc := kahnProcess_spec w (popped ++ [nid]) (w.kahnChildren nid)
        indeg rest (kahnChildren_subset w nid)
        (by
          intro n hn
          rw [count_kahnChildren_depsOf hnodup hn nid, ha n hn]
          have := countP_notMem_append_singleton (w.depsOf n) popped nid hnidpop
          omega)
        (by
          intro n hn
          by_cases hneq : n = nid
          · subst hneq
            constructor
            · intro _
              refine ⟨fun d hd => List.mem_append.mpr (Or.inl (hdepsnid d hd)), ?_⟩
              rw [count_kahnChildren_depsOf hnodup hn n]
              rw [List.count_eq_zero]
              exact hnoself
            · intro _
              right
              simp
          · rw [count_kahnChildren_depsOf hnodup hn nid]
            have hmempop : n ∈ popped ++ [nid] ↔ n ∈ popped := by
              simp [hneq]
            have hrest : n ∈ rest ↔ n ∈ nid :: rest := by
              simp [hneq]
            rw [hmempop, hrest, hb n hn]
            constructor
            · intro hds
              constructor
              · intro d hd
                exact List.mem_append.mpr (Or.inl (hds d hd))
              · rw [List.count_eq_zero]
                intro hmem
                exact hnidpop (hds nid hmem)
            · rintro ⟨hds, hcnt⟩
              intro d hd
              rcases List.mem_append.mp (hds d hd) with h | h
              · exact h
              · exfalso
                rw [List.mem_singleton] at h
                subst h
                rw [List.count_eq_zero] at hcnt
                exact hcnt hd)
        (by
          have hcc : (nid :: (rest ++ popped)).Nodup := by
            rw [← List.cons_append]
            exact hc
          have hperm : ((rest ++ popped) ++ [nid]).Perm (nid :: (rest ++ popped)) :=
            List.perm_append_singleton nid (rest ++ popped)
          rw [← List.append_assoc]
          exact hperm.symm.nodup hcc)
        (fun y hy => hrdy (by simp [hy]))
        he
      cases hp : kahnProcess (w.kahnChildren nid) indeg rest with
      | mk indeg₁ ready₁ =>
        rw [hp] at hproc
        obtain ⟨hA, hB, hC, hD, hE⟩ := hproc
        have hinv' : KahnInvariant w indeg₁ ready₁ (popped ++ [nid]) := by
          refine ⟨hA, hB, hC, hD, ?_, hE, isTopo_append_singleton htopo hdepsnid⟩
          intro y hy
          rcases List.mem_append.mp hy with h | h
          · exact hpop h
          · rw [List.mem_singleton] at h
            exact h ▸ hnid
        have hfuel' : w.nodeIds.length + 1 - (popped ++ [nid]).length ≤ fuel := by
          rw [List.length_append]
          simp only [List.length_singleton]
          omega
        obtain ⟨indeg', popped'', heq, hinv''⟩ :=
          ih indeg₁ ready₁ (popped ++ [nid]) hinv' hfuel'
        refine ⟨indeg', popped'', ?_, hinv''⟩
        rw [kahnLoop]
        simp only [hp]
        exact heq

/-! ### `validate_dag` against the declarative acyclicity -/

theorem firstViolation_eq_none_iff (w : Workflow) :
    w.firstViolation = none ↔ (w.DepsPresent ∧ w.NoSelfDep) := by
  unfold Workflow.firstViolation
  rw [List.findSome?_eq_none_iff]
  constructor
  · intro h
    constructor
    · intro n hn d hd
      have h1 := h n hn
      rw [List.findSome?_eq_none_iff] at h1
      have h2 := h1 d hd
      by_cases hdm : d ∈ w.nodeIds
      · exact hdm
      · rw [if_pos hdm] at h2
        cases h2
    · intro n hn hd
      have h1 := h n hn
      rw [List.findSome?_eq_none_iff] at h1
      have h2 := h1 n.node_id hd
      by_cases hdm : n.node_id ∈ w.nodeIds
      · rw [if_neg (by simpa using hdm), if_pos rfl] at h2
        cases h2
      · rw [if_pos hdm] at h2
        cases h2
  · rintro ⟨hp, hs⟩ n hn
    rw [List.findSome?_eq_none_iff]
    intro d hd
    rw [if_neg (by simpa using hp n hn d hd),
      if_neg (fun he => hs n hn (by rw [← he]; exact hd))]

theorem kahnInvariant_init {w : Workflow} (hnodup : w.nodeIds.Nodup) :
    KahnInvariant w w.kahnIndeg0
      ((w.nodeIds.filter (fun nid => w.kahnIndeg0 nid = 0)).reverse) [] := by
  have hlen : ∀ n ∈ w.nodeIds,
      w.kahnIndeg0 n = ((w.depsOf n).length : Int) := by
    intro n hn
    obtain ⟨node, hnode, rfl⟩ := List.mem_map.mp hn
    rw [kahnIndeg0_of_mem hnodup hnode, depsOf_of_mem hnodup hnode]
  refine ⟨?_, ?_, ?_, ?_, ?_, ?_, ?_⟩
  · intro n hn
    rw [hlen n hn, countP_notMem_nil]
  · intro n hn
    have hready : n ∈ (w.nodeIds.filter (fun nid => w.kahnIndeg0 nid = 0)).reverse
        ↔ w.kahnIndeg0 n = 0 := by
      rw [List.mem_reverse, List.mem_filter]
      simp [hn]
    constructor
    · rintro (h | h)
      · rw [hready, hlen n hn] at h
        intro d hd
        exfalso
        have : (w.depsOf n).length = 0 := by exact_mod_cast h
        rw [List.length_eq_zero] at this
        rw [this] at hd
        cases hd
      · cases h
    · intro h
      left
      rw [hready, hlen n hn]
      have : w.depsOf n = [] := by
        cases hdep : w.depsOf n with
        | nil => rfl
        | cons a l =>
          exfalso
          have := h a (by rw [hdep]; simp)
          cases this
      rw [this]
      simp
  · rw [List.append_nil, List.nodup_reverse]
    exact hnodup.filter _
  · intro y hy
    rw [List.mem_reverse, List.mem_filter] at hy
    exact hy.1
  · intro y hy
    cases hy
  · intro x hx
    exact kahnIndeg0_of_not_mem hx
  · intro l₁ n l₂ heq
    exact absurd heq (by simp)

/-- The core correctness of `validate_dag`'s Kahn phase: under the data-model
invariants checked by the first loop, success is equivalent to acyclicity of
the `depends_on` relation, and the only possible failure is `Cycle`. -/
theorem validate_dag_ok_iff {w : Workflow} (hnodup : w.nodeIds.Nodup)
    (hpres : w.DepsPresent) (hself : w.NoSelfDep) :
    (w.validate_dag = .ok () ↔ w.Acyclic) ∧
      (¬ w.Acyclic → w.validate_dag = .error .cycle) := by
  have hfv : w.firstViolation = none :=
    (firstViolation_eq_none_iff w).mpr ⟨hpres, hself⟩
  have hids_len : w.nodeIds.length = w.nodes.length := by
    unfold Workflow.nodeIds
    exact List.length_map w.nodes WorkflowNode.node_id
  obtain ⟨indeg', popped', heq, hinv⟩ :=
    kahnLoop_spec hnodup hpres hself (w.nodes.length + 1) w.kahnIndeg0
      ((w.nodeIds.filter (fun nid => w.kahnIndeg0 nid = 0)).reverse) []
      (kahnInvariant_init hnodup) (by simp; omega)
  obtain ⟨hA, hB, hC, -, hpop, -, htopo⟩ := hinv
  have hpnodup : popped'.Nodup := by
    rw [List.nil_append] at hC
    exact hC
  have hsound : popped'.length = w.nodes.length → w.Acyclic := by
    intro hlen
    have hall : ∀ n ∈ w.nodeIds, n ∈ popped' :=
      mem_of_nodup_subset_length_eq hpnodup hnodup hpop (by omega)
    exact acyclic_of_topo w popped' hpnodup htopo hall
  have hcomp : w.Acyclic → popped'.length = w.nodes.length := by
    intro hacyc
    have hall : ∀ n ∈ w.nodeIds, n ∈ popped' := by
      by_contra hex
      push_neg at hex
      obtain ⟨n0, hn0, hn0p⟩ := hex
      set U := w.nodeIds.filter (fun x => decide (x ∉ popped')) with hU
      have hUne : U ≠ [] := by
        intro hUnil
        have : n0 ∈ U := by
          rw [hU, List.mem_filter]
          exact ⟨hn0, by simpa using hn0p⟩
        rw [hUnil] at this
        cases this
      have hpar : ∀ u ∈ U, ∃ p ∈ U, w.edge p u := by
        intro u hu
        rw [hU, List.mem_filter] at hu
        obtain ⟨huid, hupop⟩ := hu
        have hupop' : u ∉ popped' := by simpa using hupop
        have hnotall : ¬ (∀ d ∈ w.depsOf u, d ∈ popped') := by
          intro hds
          exact hupop' ((hB u huid).mpr hds |>.elim (fun h => absurd h (by simp)) id)
        push_neg at hnotall
        obtain ⟨d, hd, hdpop⟩ := hnotall
        have hdid : d ∈ w.nodeIds := depsOf_subset_of_present hnodup hpres u huid d hd
        refine ⟨d, ?_, huid, hd⟩
        rw [hU, List.mem_filter]
        exact ⟨hdid, by simpa using hdpop⟩
      obtain ⟨n, hcyc⟩ := cycle_of_all_have_parent w U hUne hpar
      exact hacyc n hcyc
    have h1 := nodup_subset_length_le hpnodup hpop
    have h2 := nodup_subset_length_le hnodup hall
    omega
  constructor
  · constructor
    · intro hok
      apply hsound
      unfold Workflow.validate_dag at hok
      rw [hfv] at hok
      dsimp only [] at hok
      rw [heq] at hok
      by_cases hl : popped'.length = w.nodes.length
      · exact hl
      · rw [if_neg hl] at hok
        cases hok
    · intro hacyc
      unfold Workflow.validate_dag
      rw [hfv]
      dsimp only []
      rw [heq]
      rw [if_pos (hcomp hacyc)]
  · intro hacyc
    unfold Workflow.validate_dag
    rw [hfv]
    dsimp only []
    rw [heq]
    rw [if_neg (fun hl => hacyc (hsound hl))]

/-- C3.  For workflows whose `depends_on` ids all exist and with no
self-dependencies (and unique node ids, as the `_nodes` dict guarantees),
`validate_dag` succeeds exactly when the parent→child dependency relation is
acyclic; on a cyclic graph it fails with the `Cycle` error, and hence so does
compilation — `to_canvas` for any target, and the plan compiler. -/
theorem validate_dag_iff_acyclic (w : Workflow) (hnodup : w.nodeIds.Nodup)
    (hpres : w.DepsPresent) (hself : w.NoSelfDep) :
    (w.validate_dag = .ok () ↔ w.Acyclic)
    ∧ (¬ w.Acyclic →
        w.validate_dag = .error .cycle
        ∧ (∀ target, (w.to_canvas target).1 = .error .cycle)
        ∧ w.compile none = .error .cycle) := by
  obtain ⟨hiff, hcyc⟩ := validate_dag_ok_iff hnodup hpres hself
  refine ⟨hiff, fun hnacyc => ⟨hcyc hnacyc, ?_, ?_⟩⟩
  · intro target
    unfold Workflow.to_canvas
    rw [hcyc hnacyc]
  · unfold Workflow.compile
    rw [hcyc hnacyc]

/-- C3 witness: the two-cycle workflow `a ↔ b` has present dependencies, no
self-loops and unique ids; it is cyclic, and `validate_dag` as well as both
compilation entry points reject it with `Cycle`. -/
theorem validate_dag_iff_acyclic_witness :
    (wfCycle.nodeIds.Nodup ∧ wfCycle.DepsPresent ∧ wfCycle.NoSelfDep) ∧
      ((wfCycle.validate_dag = .ok () ↔ wfCycle.Acyclic)
        ∧ (¬ wfCycle.Acyclic →
            wfCycle.validate_dag = .error .cycle
            ∧ (∀ target, (wfCycle.to_canvas target).1 = .error .cycle)
            ∧ wfCycle.compile none = .error .cycle)) := by
  refine ⟨⟨?_, ?_, ?_⟩, ?_⟩
  · decide
  · intro n hn d hd
    fin_cases hn <;> simp_all [wfCycle, Workflow.nodeIds]
  · intro n hn
    fin_cases hn <;> decide
  · exact validate_dag_iff_acyclic wfCycle (by decide)
      (by intro n hn d hd; fin_cases hn <;> simp_all [wfCycle, Workflow.nodeIds])
      (by intro n hn; fin_cases hn <;> decide)

/-! ## `_ancestors` and `ancestor_closure`: backward reachability -/

theorem mem_of_dictGet?_eq_some {α : Type} {d : Dict α} {k : String} {v : α}
    (h : dictGet? d k = some v) : (k, v) ∈ d := by
  induction d with
  | nil => cases h
  | cons p rest ih =>
    obtain ⟨k', v'⟩ := p
    by_cases hk : k = k'
    · subst hk
      rw [dictGet?_cons_eq] at h
      cases h
      exact List.mem_cons_self _ _
    · rw [dictGet?_cons_ne hk] at h
      exact List.mem_cons_of_mem _ (ih h)

theorem mem_dictSet_elim {α : Type} {d : Dict α} {k : String} {v : α}
    {p : String × α} (h : p ∈ dictSet d k v) : p = (k, v) ∨ p ∈ d := by
  induction d with
  | nil => exact Or.inl (List.mem_singleton.mp h)
  | cons q rest ih =>
    obtain ⟨k', v'⟩ := q
    unfold dictSet at h
    by_cases hk : k' = k
    · rw [if_pos hk] at h
      rcases List.mem_cons.mp h with h | h
      · exact Or.inl h
      · exact Or.inr (List.mem_cons_of_mem _ h)
    · rw [if_neg hk] at h
      rcases List.mem_cons.mp h with h | h
      · exact Or.inr (h ▸ List.mem_cons_self _ _)
      · rcases ih h with h' | h'
        · exact Or.inl h'
        · exact Or.inr (List.mem_cons_of_mem _ h')

theorem mem_setInsert {x y : String} {s : List String} :
    y ∈ setInsert x s ↔ y = x ∨ y ∈ s := by
  unfold setInsert
  by_cases hx : x ∈ s
  · rw [if_pos hx]
    constructor
    · exact Or.inr
    · rintro (rfl | h)
      · exact hx
      · exact h
  · rw [if_neg hx, List.mem_append, List.mem_singleton]
    tauto

theorem mem_setUnion {y : String} {s t : List String} :
    y ∈ setUnion s t ↔ y ∈ s ∨ y ∈ t := by
  induction t generalizing s with
  | nil => simp [setUnion]
  | cons x rest ih =>
    unfold setUnion at ih ⊢
    rw [List.foldl_cons, ih, mem_setInsert, List.mem_cons]
    tauto

theorem transGen_src_mem {w : Workflow} (hnodup : w.nodeIds.Nodup)
    (hpres : w.DepsPresent) {m n : String}
    (h : Relation.TransGen w.edge m n) : m ∈ w.nodeIds := by
  obtain ⟨b, hmb, -⟩ := Relation.TransGen.head'_iff.mp h
  exact depsOf_subset_of_present hnodup hpres b hmb.1 m hmb.2

theorem backSet_finite {w : Workflow} (hnodup : w.nodeIds.Nodup)
    (hpres : w.DepsPresent) (n : String) :
    {m | m = n ∨ Relation.TransGen w.edge m n}.Finite := by
  apply Set.Finite.subset (Set.Finite.insert n (w.nodeIds.finite_toSet))
  rintro m (rfl | hm)
  · exact Set.mem_insert _ _
  · exact Set.mem_insert_of_mem _ (transGen_src_mem hnodup hpres hm)

theorem ncard_setOf_mem_le_length (l : List String) :
    Set.ncard {x | x ∈ l} ≤ l.length := by
  have h1 : {x | x ∈ l} = ↑l.toFinset := by ext x; simp
  rw [h1, Set.ncard_coe_Finset]
  exact l.toFinset_card_le

theorem ancRank_le_of_mem {w : Workflow} (hnodup : w.nodeIds.Nodup)
    (hpres : w.DepsPresent) {n : String} (hn : n ∈ w.nodeIds) :
    Set.ncard {m | m = n ∨ Relation.TransGen w.edge m n} ≤ w.nodeIds.length := by
  have hsub : {m | m = n ∨ Relation.TransGen w.edge m n} ⊆ {x | x ∈ w.nodeIds} := by
    rintro m (rfl | hm)
    · exact hn
    · exact transGen_src_mem hnodup hpres hm
  calc Set.ncard {m | m = n ∨ Relation.TransGen w.edge m n}
      ≤ Set.ncard {x | x ∈ w.nodeIds} :=
        Set.ncard_le_ncard hsub (w.nodeIds.finite_toSet)
    _ ≤ w.nodeIds.length := ncard_setOf_mem_le_length _

theorem ancRank_lt_of_dep {w : Workflow} (hnodup : w.nodeIds.Nodup)
    (hpres : w.DepsPresent) (hacyc : w.Acyclic) {n d : String}
    (hn : n ∈ w.nodeIds) (hd : d ∈ w.depsOf n) :
    Set.ncard {m | m = d ∨ Relation.TransGen w.edge m d}
      < Set.ncard {m | m = n ∨ Relation.TransGen w.edge m n} := by
  have hedge : w.edge d n := ⟨hn, hd⟩
  apply Set.ncard_lt_ncard ?_ (backSet_finite hnodup hpres n)
  rw [Set.ssubset_def]
  constructor
  · rintro m (rfl | hm)
    · exact Or.inr (.single hedge)
    · exact Or.inr (hm.tail hedge)
  · intro hsub
    have hmem : n ∈ {m | m = n ∨ Relation.TransGen w.edge m n} := Or.inl rfl
    rcases hsub hmem with h | h
    · subst h
      exact hacyc n (.single hedge)
    · exact hacyc n (h.tail hedge)

theorem transGen_iff_exists_dep {w : Workflow} {m n : String}
    (hn : n ∈ w.nodeIds) :
    Relation.TransGen w.edge m n
      ↔ ∃ d ∈ w.depsOf n, (m = d ∨ Relation.TransGen w.edge m d) := by
  constructor
  · intro h
    obtain ⟨b, hmb, hbn⟩ := Relation.TransGen.tail'_iff.mp h
    refine ⟨b, hbn.2, ?_⟩
    rcases Relation.reflTransGen_iff_eq_or_transGen.mp hmb with h' | h'
    · exact Or.inl h'.symm
    · exact Or.inr h'
  · rintro ⟨d, hd, rfl | h⟩
    · exact .single ⟨hn, hd⟩
    · exact h.tail ⟨hn, hd⟩

theorem ancestors_spec {w0 : Workflow} (hnodup : w0.nodeIds.Nodup)
    (hpres : w0.DepsPresent) (hacyc : w0.Acyclic) :
    ∀ (k fuel : Nat), k < fuel →
      ∀ n ∈ w0.nodeIds,
        Set.ncard {m | m = n ∨ Relation.TransGen w0.edge m n} ≤ k →
      ∀ (w : Workflow), w.nodes = w0.nodes →
        (∀ p ∈ w.ancestors_cache, ∀ m,
            m ∈ p.2 ↔ Relation.TransGen w0.edge m p.1) →
        ∃ s w', Workflow.ancestors w fuel n = (.ok s, w')
          ∧ (∀ m, m ∈ s ↔ Relation.TransGen w0.edge m n)
          ∧ w'.nodes = w0.nodes
          ∧ (∀ p ∈ w'.ancestors_cache, ∀ m,
              m ∈ p.2 ↔ Relation.TransGen w0.edge m p.1) := by
  intro k
  induction k using Nat.strong_induction_on with
  | _ k ih =>
    intro fuel hk n hn hrank w hw hcache
    cases fuel with
    | zero => omega
    | succ f =>
      have hids : w.nodeIds = w0.nodeIds := by
        unfold Workflow.nodeIds; rw [hw]
      have hdeps : ∀ x, w.depsOf x = w0.depsOf x := by
        intro x
        unfold Workflow.depsOf Workflow.node?
        rw [hw]
      unfold Workflow.ancestors
      cases hc : w.ancestors_cache.lookup n with
      | some s =>
        refine ⟨s, w, rfl, ?_, hw, hcache⟩
        exact hcache (n, s) (mem_of_dictGet?_eq_some hc)
      | none =>
        obtain ⟨node, hnodemem, hnid⟩ :
            ∃ node ∈ w.nodes, node.node_id = n := by
          have : n ∈ w.nodeIds := hids ▸ hn
          obtain ⟨node, hmem, hid⟩ := List.mem_map.mp this
          exact ⟨node, hmem, hid⟩
        have hn? : w.node? n = some node := by
          rw [← hnid]
          exact node?_of_mem (hids ▸ hnodup) node hnodemem
        rw [hn?]
        dsimp only []
        have hnd : node.depends_on = w0.depsOf n := by
          have h1 : w.depsOf n = node.depends_on := by
            unfold Workflow.depsOf
            rw [hn?]
            rfl
          rw [← h1, hdeps]
        have hdep_ok : ∀ d ∈ node.depends_on,
            d ∈ w0.nodeIds ∧
              Set.ncard {m | m = d ∨ Relation.TransGen w0.edge m d} < k := by
          intro d hd
          rw [hnd] at hd
          have hdm : d ∈ w0.nodeIds := depsOf_subset_of_present hnodup hpres n hn d hd
          refine ⟨hdm, ?_⟩
          calc Set.ncard {m | m = d ∨ Relation.TransGen w0.edge m d}
              < Set.ncard {m | m = n ∨ Relation.TransGen w0.edge m n} :=
                ancRank_lt_of_dep hnodup hpres hacyc hn hd
            _ ≤ k := hrank
        have hkf : k ≤ f := Nat.lt_succ_iff.mp hk
        have hfold : ∀ (ds : List String),
            (∀ d ∈ ds, d ∈ w0.nodeIds ∧
                Set.ncard {m | m = d ∨ Relation.TransGen w0.edge m d} < k) →
            ∀ (acc : List String) (w₁ : Workflow) (P : String → Prop),
              w₁.nodes = w0.nodes →
              (∀ p ∈ w₁.ancestors_cache, ∀ m,
                  m ∈ p.2 ↔ Relation.TransGen w0.edge m p.1) →
              (∀ m, m ∈ acc ↔ P m) →
              ∃ accf wf,
                ds.foldl
                  (stepThread (fun w' dep => Workflow.ancestors w' f dep)
                    (fun acc dep s => setUnion (setInsert dep acc) s))
                  ((.ok acc, w₁) : Except WError (List String) × Workflow)
                  = (.ok accf, wf)
                ∧ (∀ m, m ∈ accf ↔
                    (P m ∨ ∃ d ∈ ds, m = d ∨ Relation.TransGen w0.edge m d))
                ∧ wf.nodes = w0.nodes
                ∧ (∀ p ∈ wf.ancestors_cache, ∀ m,
                    m ∈ p.2 ↔ Relation.TransGen w0.edge m p.1) := by
          intro ds
          induction ds with
          | nil =>
            intro _ acc w₁ P hw₁ hc₁ hacc
            refine ⟨acc, w₁, rfl, ?_, hw₁, hc₁⟩
            intro m
            simp [hacc m]
          | cons d rest ihds =>
            intro hds acc w₁ P hw₁ hc₁ hacc
            obtain ⟨hdm, hdrank⟩ := hds d (List.mem_cons_self _ _)
            obtain ⟨sd, w₂, heqd, hsd, hw₂, hc₂⟩ :=
              ih _ hdrank f (Nat.lt_of_lt_of_le hdrank hkf) d hdm le_rfl w₁ hw₁ hc₁
            have hstep : stepThread (fun w' dep => Workflow.ancestors w' f dep)
                (fun acc dep s => setUnion (setInsert dep acc) s)
                ((.ok acc, w₁) : Except WError (List String) × Workflow) d
                = (.ok (setUnion (setInsert d acc) sd), w₂) := by
              unfold stepThread
              dsimp only []
              rw [heqd]
            rw [List.foldl_cons, hstep]
            obtain ⟨accf, wf, heqf, hifff, hwf, hcf⟩ :=
              ihds (fun d' hd' => hds d' (List.mem_cons_of_mem _ hd'))
                (setUnion (setInsert d acc) sd) w₂
                (fun m => P m ∨ (m = d ∨ Relation.TransGen w0.edge m d))
                hw₂ hc₂
                (by
                  intro m
                  rw [mem_setUnion, mem_setInsert, hacc m, hsd m]
                  tauto)
            refine ⟨accf, wf, heqf, ?_, hwf, hcf⟩
            intro m
            rw [hifff m]
            constructor
            · rintro (hP | hrest)
              · rcases hP with hP | hd
                · exact Or.inl hP
                · exact Or.inr ⟨d, List.mem_cons_self _ _, hd⟩
              · obtain ⟨d', hd', hq⟩ := hrest
                exact Or.inr ⟨d', List.mem_cons_of_mem _ hd', hq⟩
            · rintro (hP | ⟨d', hd', hq⟩)
              · exact Or.inl (Or.inl hP)
              · rcases List.mem_cons.mp hd' with rfl | hd''
                · exact Or.inl (Or.inr hq)
                · exact Or.inr ⟨d', hd'', hq⟩
        obtain ⟨accf, wf, heqf, hifff, hwf, hcf⟩ :=
          hfold node.depends_on hdep_ok [] w (fun _ => False) hw hcache
            (by intro m; simp)
        rw [heqf]
        have hchar : ∀ m, m ∈ accf ↔ Relation.TransGen w0.edge m n := by
          intro m
          rw [hifff m, transGen_iff_exists_dep hn, hnd]
          simp
        refine ⟨accf,
          { wf with ancestors_cache := dictSet wf.ancestors_cache n accf },
          rfl, hchar, hwf, ?_⟩
        intro p hp m
        rcases mem_dictSet_elim hp with rfl | hp'
        · exact hchar m
        · exact hcf p hp' m


/-- C8.  For a workflow with unique node ids that passes `validate_dag` and
whose `_ancestors_cache` entries are semantically correct (in particular a
fresh or just-mutated workflow, whose cache is empty): for every `node_id`
present in the workflow, `ancestor_closure(node_id)` returns exactly
`node_id` itself together with all nodes reachable backward along
`depends_on` (parent) edges; for a `node_id` absent from the workflow it
fails with `UnknownNode`. -/
theorem ancestor_closure_spec (w : Workflow) (hnodup : w.nodeIds.Nodup)
    (hvalid : w.validate_dag = .ok ())
    (hcache : ∀ p ∈ w.ancestors_cache, ∀ m,
        m ∈ p.2 ↔ Relation.TransGen w.edge m p.1) :
    (∀ nid ∈ w.nodeIds, ∃ s, w.ancestor_closure nid = .ok s
        ∧ ∀ m, (m ∈ s ↔ (m = nid ∨ Relation.TransGen w.edge m nid)))
    ∧ ∀ nid, nid ∉ w.nodeIds →
        w.ancestor_closure nid = .error (.unknownNode nid) := by
  have hfv : w.firstViolation = none := by
    cases hfv : w.firstViolation with
    | none => rfl
    | some e =>
      unfold Workflow.validate_dag at hvalid
      rw [hfv] at hvalid
      dsimp only [] at hvalid
      cases hvalid
  obtain ⟨hpres, hself⟩ := (firstViolation_eq_none_iff w).mp hfv
  have hacyc : w.Acyclic := ((validate_dag_ok_iff hnodup hpres hself).1).mp hvalid
  constructor
  · intro nid hnid
    have hlen : w.nodeIds.length = w.nodes.length := by
      unfold Workflow.nodeIds
      exact List.length_map _ _
    obtain ⟨s, w', heq, hs, -, -⟩ :=
      ancestors_spec hnodup hpres hacyc
        (Set.ncard {m | m = nid ∨ Relation.TransGen w.edge m nid})
        (w.nodes.length + 1)
        (by
          have := ancRank_le_of_mem hnodup hpres hnid
          omega)
        nid hnid le_rfl w rfl hcache
    unfold Workflow.ancestor_closure
    rw [if_pos hnid, heq]
    refine ⟨setInsert nid s, rfl, ?_⟩
    intro m
    rw [mem_setInsert, hs m]
  · intro nid hnid
    unfold Workflow.ancestor_closure
    rw [if_neg hnid]

/-- C8 witness: the chain workflow `a ← b ← c` (with its empty caches) has
unique ids and validates; the theorem then computes every present node's
backward closure and rejects an absent id with `UnknownNode`. -/
theorem ancestor_closure_spec_witness :
    (wfChain.nodeIds.Nodup ∧ wfChain.validate_dag = .ok ()
      ∧ (∀ p ∈ wfChain.ancestors_cache, ∀ m,
          m ∈ p.2 ↔ Relation.TransGen wfChain.edge m p.1))
    ∧ ((∀ nid ∈ wfChain.nodeIds, ∃ s, wfChain.ancestor_closure nid = .ok s
          ∧ ∀ m, (m ∈ s ↔ (m = nid ∨ Relation.TransGen wfChain.edge m nid)))
        ∧ ∀ nid, nid ∉ wfChain.nodeIds →
            wfChain.ancestor_closure nid = .error (.unknownNode nid)) :=
  ⟨⟨by decide, rfl, fun p hp => absurd hp (List.not_mem_nil p)⟩,
    ancestor_closure_spec wfChain (by decide) rfl
      (fun p hp => absurd hp (List.not_mem_nil p))⟩

/-! ## The spec compiler without a target: `topological_order` and `compile` -/

theorem topoGo_ok {w : Workflow} (hnodup : w.nodeIds.Nodup)
    (hpres : w.DepsPresent) (hacyc : w.Acyclic) :
    ∀ (fuel : Nat) (popped : List String), popped.Nodup →
      popped ⊆ w.nodeIds → w.nodeIds.length ≤ fuel + popped.length →
      ∃ order, w.topoGo w.nodeIds fuel popped = .ok order
        ∧ order.Nodup ∧ order ⊆ w.nodeIds ∧ ∀ n ∈ w.nodeIds, n ∈ order := by
  intro fuel
  induction fuel with
  | zero =>
    intro popped hpnodup hpsub hlen
    have hall : ∀ n ∈ w.nodeIds, n ∈ popped :=
      mem_of_nodup_subset_length_eq hpnodup hnodup hpsub (by omega)
    refine ⟨popped, ?_, hpnodup, hpsub, hall⟩
    unfold Workflow.topoGo
    rw [if_pos (List.all_eq_true.mpr (fun n hn => by simpa using hall n hn))]
  | succ fuel ih =>
    intro popped hpnodup hpsub hlen
    unfold Workflow.topoGo
    by_cases hall : ∀ n ∈ w.nodeIds, n ∈ popped
    · refine ⟨popped, ?_, hpnodup, hpsub, hall⟩
      rw [if_pos (List.all_eq_true.mpr (fun n hn => by simpa using hall n hn))]
    · rw [if_neg (fun hc => hall (fun n hn => by
        simpa using List.all_eq_true.mp hc n hn))]
      -- a candidate with all selected dependencies popped exists
      have hcand : ∃ nid ∈ w.nodeIds,
          (decide (nid ∈ w.nodeIds) && decide (nid ∉ popped) &&
            decide (∀ d ∈ w.depsOf nid, d ∈ w.nodeIds → d ∈ popped)) = true := by
        by_contra hnone
        push_neg at hnone
        set U := w.nodeIds.filter (fun x => decide (x ∉ popped)) with hU
        have hUne : U ≠ [] := by
          push_neg at hall
          obtain ⟨n0, hn0, hn0p⟩ := hall
          intro hUnil
          have : n0 ∈ U := by
            rw [hU, List.mem_filter]
            exact ⟨hn0, by simpa using hn0p⟩
          rw [hUnil] at this
          cases this
        have hpar : ∀ u ∈ U, ∃ p ∈ U, w.edge p u := by
          intro u hu
          rw [hU, List.mem_filter] at hu
          obtain ⟨huid, hupop⟩ := hu
          have hupop' : u ∉ popped := by simpa using hupop
          have hnd : ¬ (∀ d ∈ w.depsOf u, d ∈ w.nodeIds → d ∈ popped) := by
            intro hd
            exact hnone u huid (by
              rw [Bool.and_eq_true, Bool.and_eq_true]
              exact ⟨⟨by simpa using huid, by simpa using hupop'⟩,
                by simpa using hd⟩)
          push_neg at hnd
          obtain ⟨d, hd, -, hdpop⟩ := hnd
          refine ⟨d, ?_, huid, hd⟩
          rw [hU, List.mem_filter]
          exact ⟨depsOf_subset_of_present hnodup hpres u huid d hd,
            by simpa using hdpop⟩
        obtain ⟨n, hcyc⟩ := cycle_of_all_have_parent w U hUne hpar
        exact hacyc n hcyc
      have hsome : (w.topoPick w.nodeIds popped).isSome := by
        unfold Workflow.topoPick
        rw [List.find?_isSome]
        obtain ⟨nid, hnid, hp⟩ := hcand
        exact ⟨nid, hnid, hp⟩
      obtain ⟨nid, hfind⟩ := Option.isSome_iff_exists.mp hsome
      have hnidmem : nid ∈ w.nodeIds :=
        List.mem_of_find?_eq_some hfind
      have hnidpred := List.find?_some hfind
      rw [Bool.and_eq_true, Bool.and_eq_true] at hnidpred
      have hnidpop : nid ∉ popped := by
        have := hnidpred.1.2
        simpa using this
      rw [hfind]
      have hres := ih (popped ++ [nid])
        (by
          rw [List.nodup_append]
          refine ⟨hpnodup, List.nodup_singleton _, ?_⟩
          intro a ha hb
          rw [List.mem_singleton] at hb
          subst hb
          exact hnidpop ha)
        (by
          intro a ha
          rcases List.mem_append.mp ha with h | h
          · exact hpsub h
          · rw [List.mem_singleton] at h
            subst h
            exact hnidmem)
        (by
          rw [List.length_append, List.length_singleton]
          omega)
      obtain ⟨order, heq, hx⟩ := hres
      exact ⟨order, heq, hx⟩

theorem topological_order_ok {w : Workflow} (hnodup : w.nodeIds.Nodup)
    (hpres : w.DepsPresent) (hacyc : w.Acyclic) :
    ∃ order : List String, w.topological_order w.nodeIds = .ok order
      ∧ order.Perm w.nodeIds := by
  obtain ⟨order, heq, hnod, hsub, hall⟩ :=
    topoGo_ok hnodup hpres hacyc w.nodeIds.length [] List.nodup_nil
      (by intro a ha; cases ha) (by simp)
  refine ⟨order, heq, ?_⟩
  rw [List.perm_ext_iff_of_nodup hnod hnodup]
  intro a
  exact ⟨fun h => hsub h, fun h => hall a h⟩

theorem compile_none_ok {w : Workflow} (hnodup : w.nodeIds.Nodup)
    (hpres : w.DepsPresent) (hacyc : w.Acyclic)
    (hvalid : w.validate_dag = .ok ()) (hne : w.nodes ≠ []) :
    ∃ order : List String, order.Perm w.nodeIds ∧
      w.compile none = .ok ([Step.initContext]
        ++ order.map (fun nid =>
            let n := (w.node? nid).getD ⟨nid, ⟨"", [], []⟩, [], true⟩
            Step.executeNode n.node_id n.task.name n.task.args n.task.kwargs
              n.depends_on n.consume_dependency_results)
        ++ [Step.extractSinks w.sinks]) := by
  obtain ⟨order, horder, hperm⟩ := topological_order_ok hnodup hpres hacyc
  refine ⟨order, hperm, ?_⟩
  have hemp : w.nodes.isEmpty = false := by
    cases hn0 : w.nodes with
    | nil => exact absurd hn0 hne
    | cons a l => rfl
  unfold Workflow.compile
  rw [hvalid]
  simp only []
  rw [hemp]
  simp only [Bool.false_eq_true, if_false]
  rw [horder]


/-- C1.  Modelled from the spec: for every well-formed workflow (unique node
ids, `validate_dag` passes, at least one node), compiling without a target
succeeds and yields the plan `[InitContext] ++ ExecuteNode… ++
[ExtractSinks (sinks)]` whose `ExecuteNode` step ids are a permutation of
the full node set; and on the E2 workflow (`a: T("x")`, `b: F[a]`,
`c: G[a]`) the compiled plan, executed by the substrate against the spec's
task registry, returns the mapping `{"b": "xf", "c": "xg"}`. -/
theorem compile_no_target_spec (w : Workflow) (hnodup : w.nodeIds.Nodup)
    (hvalid : w.validate_dag = .ok ()) (hne : w.nodes ≠ []) :
    (∃ order : List String, order.Perm w.nodeIds ∧
        w.compile none = .ok ([Step.initContext]
          ++ order.map (fun nid =>
              let n := (w.node? nid).getD ⟨nid, ⟨"", [], []⟩, [], true⟩
              Step.executeNode n.node_id n.task.name n.task.args n.task.kwargs
                n.depends_on n.consume_dependency_results)
          ++ [Step.extractSinks w.sinks]))
    ∧ (∃ plan, wfE2.compile none = .ok plan
        ∧ runPlan regSpec plan
          = .ok (.dict [("b", .str "xf"), ("c", .str "xg")])) := by
  have hfv : w.firstViolation = none := by
    cases hfv : w.firstViolation with
    | none => rfl
    | some e =>
      unfold Workflow.validate_dag at hvalid
      rw [hfv] at hvalid
      dsimp only [] at hvalid
      cases hvalid
  obtain ⟨hpres, hself⟩ := (firstViolation_eq_none_iff w).mp hfv
  have hacyc : w.Acyclic := ((validate_dag_ok_iff hnodup hpres hself).1).mp hvalid
  refine ⟨compile_none_ok hnodup hpres hacyc hvalid hne,
    ⟨[Step.initContext,
      Step.executeNode "a" "T" [.str "x"] [] [] true,
      Step.executeNode "b" "F" [] [] ["a"] true,
      Step.executeNode "c" "G" [] [] ["a"] true,
      Step.extractSinks ["b", "c"]], rfl, rfl⟩⟩

/-- C1 witness: the E2 workflow has unique ids, validates and is nonempty;
the theorem then produces the whole-workflow plan and its executed result. -/
theorem compile_no_target_spec_witness :
    (wfE2.nodeIds.Nodup ∧ wfE2.validate_dag = .ok () ∧ wfE2.nodes ≠ [])
    ∧ ((∃ order : List String, order.Perm wfE2.nodeIds ∧
          wfE2.compile none = .ok ([Step.initContext]
            ++ order.map (fun nid =>
                let n := (wfE2.node? nid).getD ⟨nid, ⟨"", [], []⟩, [], true⟩
                Step.executeNode n.node_id n.task.name n.task.args n.task.kwargs
                  n.depends_on n.consume_dependency_results)
            ++ [Step.extractSinks wfE2.sinks]))
        ∧ (∃ plan, wfE2.compile none = .ok plan
            ∧ runPlan regSpec plan
              = .ok (.dict [("b", .str "xf"), ("c", .str "xg")]))) :=
  ⟨⟨by decide, rfl, fun h => List.noConfusion h⟩,
    compile_no_target_spec wfE2 (by decide) rfl (fun h => List.noConfusion h)⟩

end Minix
